import Mathlib

/-!
# ext2fs pager and storage-extent reporter

A shallow embedding of `ext2fs/storeinfo.c` and `ext2fs/pager.c`.

Conventions of the embedding.

* `error_t` is a natural number, `0` meaning success.
* Pointers are natural-number addresses; a nullable pointer is an `Option`.
* The collaborators whose outcome the code depends on (`ext2_getblk`,
  `dev_read_sync`, `dev_write_sync`, `diskfs_catch_exception`, `malloc`, `realloc`,
  `pager_create`) are not part of these two files; their outcomes are parameters
  of the embedded functions.  The collaborators with a fixed effect (the lock
  operations, the reference counts, `vm_allocate`, the port rights) are small
  definitions, each marked as modelled from the specification.
* `block_t`, `off_t`, `daddr_t`, `vm_address_t` and `struct store_run` are
  declared outside these two files.  In the extent walk every integer operation
  is carried out in a machine word whose width `w` is a parameter.  In the pager
  the byte offsets and sizes are exact natural numbers.
-/

namespace Ext2fs

/-! ## Error codes -/

abbrev error_t := Nat

/-- Hurd value of the errno `EIO` (`_HURD_ERRNO (5)`). -/
def EIO : error_t := 0x40000005

/-- Hurd value of the errno `ENOMEM` (`_HURD_ERRNO (12)`). -/
def ENOMEM : error_t := 0x4000000c

/-- Hurd value of the errno `EINVAL` (`_HURD_ERRNO (22)`). -/
def EINVAL : error_t := 0x40000016

/-! ## storeinfo.c : the extent walk of `diskfs_S_file_get_storage_info` -/

/-- A `struct store_run`: `start` is a device-block address, or `-1` for a hole;
`length` counts device blocks. -/
structure store_run where
  start : Int
  length : Int
deriving DecidableEq, Repr

/-- Local variables of `diskfs_S_file_get_storage_info` that the loop updates.
`runs` holds `runs[0 .. num_runs)`, so `num_runs = runs.length`, and the pointer
`run` (which is `runs + num_runs - 1` whenever `num_runs > 0`) is the last element. -/
structure walk_state where
  err : error_t
  index : Nat
  runs : List store_run
  runs_alloced : Nat
deriving DecidableEq, Repr

/-! ### Machine integers

The integer types of the walk are declared outside these files.  The width `w`
of a machine word is a parameter: `unsigned`, `size_t` and `block_t` are `w`-bit
unsigned types, `int` and the fields `start` and `length` of `struct store_run`
are `w`-bit signed types in two's complement (`w = 32` on the target of this
code).  A shift by `w` bits or more and an overflowing signed addition, which C
leaves undefined, wrap around. -/

/-- The bit pattern, as a natural number below `2^w`, of the integer `x` stored
in a `w`-bit variable. -/
def to_unsigned (w : Nat) (x : Int) : Nat :=
  (x % ((2 ^ w : Nat) : Int)).toNat

/-- The value of the `w`-bit pattern `x` read as a signed integer. -/
def to_signed (w : Nat) (x : Nat) : Int :=
  if 2 * (x % 2 ^ w) < 2 ^ w then ((x % 2 ^ w : Nat) : Int)
  else ((x % 2 ^ w : Nat) : Int) - ((2 ^ w : Nat) : Int)

/-- The value a `w`-bit signed variable holds after the integer `x` is stored
in it. -/
def wrap_signed (w : Nat) (x : Int) : Int :=
  to_signed w (to_unsigned w x)

/-- The test of lines 69-72 that decides whether a new run is added:
`num_runs == 0 || ((block && run->start >= 0) ? (block != run->start + run->length)
: (block || run->start >= 0))`.  The sum is a signed addition, and the comparison
with the unsigned `block` converts it to unsigned. -/
def add_new_run (w : Nat) (runs : List store_run) (block : Nat) : Bool :=
  match runs.getLast? with
  | none => true
  | some run =>
    if block ≠ 0 ∧ 0 ≤ run.start then
      decide (block ≠ to_unsigned w (wrap_signed w (run.start + run.length)))
    else
      decide (block ≠ 0 ∨ 0 ≤ run.start)

/-- Line 95, `run->length += 1 << log2_dev_blocks_per_fs_block`, on the last run:
an `int` shift and a signed addition. -/
def extend_current_run (w : Nat) (runs : List store_run) (k : Nat) : List store_run :=
  match runs.getLast? with
  | none => runs
  | some run =>
    runs.dropLast ++
      [{ run with length := wrap_signed w (run.length + wrap_signed w ((1 <<< k : Nat) : Int)) }]

/-- Lines 58-68: the value of `block` after the lookup outcome `r` (the returned
error and the block stored through the result pointer), `block = 0` on `EINVAL`,
and `block <<= log2_dev_blocks_per_fs_block` in the unsigned type `block_t`. -/
def shifted_block (w k : Nat) (r : error_t × Nat) : Nat :=
  ((if r.1 = EINVAL then 0 else r.2 % 2 ^ w) <<< k) % 2 ^ w

/-- Lines 90-91: the new run, `run->start = block ?: -1; run->length = 0`.  The
operand `-1` is converted to the unsigned type of `block`, and the result is
stored in the signed `start`. -/
def fresh_run (w : Nat) (block : Nat) : store_run :=
  { start := to_signed w (if block ≠ 0 then block else to_unsigned w (-1)), length := 0 }

/-- One iteration of the loop body (lines 55-96).  The second component is `true`
when the iteration leaves the loop through `break`. -/
def walk_body (w : Nat) (ext2_getblk : Nat → Bool → error_t × Nat) (realloc_ok : Nat → Bool)
    (k : Nat) (s : walk_state) : walk_state × Bool :=
  let r := ext2_getblk s.index false
  let index := (s.index + 1) % 2 ^ w
  if r.1 ≠ EINVAL ∧ r.1 ≠ 0 then
    ({ s with err := r.1, index := index }, true)
  else
    let block := shifted_block w k r
    if add_new_run w s.runs block then
      if s.runs.length = s.runs_alloced then
        let runs_alloced := (s.runs_alloced * 2) % 2 ^ w
        if realloc_ok runs_alloced then
          ({ err := 0, index := index,
             runs := extend_current_run w (s.runs ++ [fresh_run w block]) k,
             runs_alloced := runs_alloced }, false)
        else
          ({ err := ENOMEM, index := index, runs := s.runs, runs_alloced := runs_alloced }, true)
      else
        ({ err := 0, index := index,
           runs := extend_current_run w (s.runs ++ [fresh_run w block]) k,
           runs_alloced := s.runs_alloced }, false)
    else
      ({ err := 0, index := index, runs := extend_current_run w s.runs k,
         runs_alloced := s.runs_alloced }, false)

/-- The loop `while (num_fs_blocks-- > 0) { ... }` of lines 54-96. -/
def walk_loop (w : Nat) (ext2_getblk : Nat → Bool → error_t × Nat) (realloc_ok : Nat → Bool)
    (k : Nat) : Nat → walk_state → walk_state
  | 0, s => s
  | num_fs_blocks + 1, s =>
    let r := walk_body w ext2_getblk realloc_ok k s
    if r.2 then r.1 else walk_loop w ext2_getblk realloc_ok k num_fs_blocks r.1

/-- Lines 37-98 of `diskfs_S_file_get_storage_info`: the allocation of the run
array and the walk over the block map, up to `mutex_unlock`.  The result is the
pair `(err, runs[0 .. num_runs))` that the rest of the function hands to
`store_remap`.  `w` is the width of a machine word, `malloc_ok` and `realloc_ok`
are the outcomes of the allocator, and `num_fs_blocks` is an `unsigned`. -/
def diskfs_S_file_get_storage_info (w : Nat) (malloc_ok : Bool) (realloc_ok : Nat → Bool)
    (ext2_getblk : Nat → Bool → error_t × Nat)
    (st_blocks log2_stat_blocks_per_fs_block log2_dev_blocks_per_fs_block : Nat) :
    error_t × List store_run :=
  if malloc_ok then
    let s := walk_loop w ext2_getblk realloc_ok log2_dev_blocks_per_fs_block
      ((st_blocks >>> log2_stat_blocks_per_fs_block) % 2 ^ w)
      { err := 0, index := 0, runs := [], runs_alloced := 10 }
    (s.err, s.runs)
  else
    (ENOMEM, [])

/-- A device-block address of the expanded map; `none` is a hole. -/
abbrev dev_addr := Option Int

/-- Expansion of one run into its device-block addresses: `length` consecutive
addresses from `start`, or `length` holes when `start = -1`. -/
def expand_run (r : store_run) : List dev_addr :=
  if r.start = -1 then List.replicate r.length.toNat none
  else (List.range r.length.toNat).map (fun (j : Nat) => some (r.start + (j : Int)))

/-- Expansion of a run list. -/
def expand_runs (runs : List store_run) : List dev_addr :=
  runs.flatMap expand_run

/-- The block-by-block map as the round-trip property words it: logical block
`i` is `2^k` holes when its lookup reports `EINVAL`, and otherwise the `2^k`
device blocks `(b << k) + j`. -/
def direct_block (k : Nat) (r : error_t × Nat) : List dev_addr :=
  if r.1 = EINVAL then List.replicate (2 ^ k) none
  else (List.range (2 ^ k)).map (fun j => some (((r.2 <<< k) + j : Nat) : Int))

/-- The direct map of logical blocks `0 .. n-1`, as worded by the property. -/
def direct_map (ext2_getblk : Nat → Bool → error_t × Nat) (k n : Nat) : List dev_addr :=
  (List.range n).flatMap (fun i => direct_block k (ext2_getblk i false))

/-- The block-by-block map as the code sees it: a lookup that reports `EINVAL`
or that gives block number `0` is a hole. -/
def walked_block (k : Nat) (r : error_t × Nat) : List dev_addr :=
  if r.1 = EINVAL ∨ r.2 = 0 then List.replicate (2 ^ k) none
  else (List.range (2 ^ k)).map (fun j => some (((r.2 <<< k) + j : Nat) : Int))

/-- The map of logical blocks `from .. from+n-1` as the code sees it. -/
def walked_map (ext2_getblk : Nat → Bool → error_t × Nat) (k start n : Nat) : List dev_addr :=
  (List.range n).flatMap (fun i => walked_block k (ext2_getblk (start + i) false))

/-- Scenario C block map: device addresses 100,101,102, a hole, 200,201. -/
def scenarioC_getblk : Nat → Bool → error_t × Nat
  | 0, _ => (0, 100)
  | 1, _ => (0, 101)
  | 2, _ => (0, 102)
  | 3, _ => (EINVAL, 0)
  | 4, _ => (0, 200)
  | 5, _ => (0, 201)
  | _, _ => (EINVAL, 0)

/-- A block map whose lookup of block `0` succeeds with block number `0`. -/
def zero_block_getblk : Nat → Bool → error_t × Nat := fun _ _ => (0, 0)

/-- A block map whose every lookup succeeds with block number `2^29`. -/
def high_block_getblk : Nat → Bool → error_t × Nat := fun _ _ => (0, 2 ^ 29)

/-- A block map of blocks that are never next to each other: block `i` is at
`100 + 2 * i`. -/
def scattered_getblk : Nat → Bool → error_t × Nat := fun i _ => (0, 100 + 2 * i)

/-- A block map whose blocks `0` and `1` are at the consecutive addresses `2^31`
and `2^31 + 1`. -/
def top_half_getblk : Nat → Bool → error_t × Nat := fun i _ => (0, 2 ^ 31 + i)

/-! ## pager.c : the block resolver and the page-fault handlers -/

/-- The discriminant of a `struct user_pager_info`. -/
inductive pager_type
  | DISK
  | FILE_DATA
deriving DecidableEq, Repr

/-- A `struct rwlock`, described by the number of reader holds and of writer
holds currently outstanding. -/
structure rwlock where
  readers : Int
  writers : Int
deriving DecidableEq, Repr

/-- Modelled from the spec: `rwlock_reader_lock` (declared outside these files)
acquires the lock in reader mode, which adds one reader hold. -/
def rwlock_reader_lock (l : rwlock) : rwlock := { l with readers := l.readers + 1 }

/-- Modelled from the spec: `rwlock_reader_unlock` (declared outside these files)
releases one reader hold. -/
def rwlock_reader_unlock (l : rwlock) : rwlock := { l with readers := l.readers - 1 }

/-- Modelled from the spec: `rwlock_writer_lock` (declared outside these files)
acquires the lock in writer mode, which adds one writer hold. -/
def rwlock_writer_lock (l : rwlock) : rwlock := { l with writers := l.writers + 1 }

/-- Modelled from the spec: `rwlock_writer_unlock` (declared outside these files)
releases one writer hold. -/
def rwlock_writer_unlock (l : rwlock) : rwlock := { l with writers := l.writers - 1 }

/-- Calls that the handlers make to their collaborators, in program order. -/
inductive io_event
  | getblk (index : Nat) (create : Bool)
  | dev_read (addr amount : Nat)
  | dev_write (addr amount : Nat)
  | vm_allocate (size : Nat)
  | ext2_error
  | catch_exception
  | end_catch_exception
deriving DecidableEq, Repr

/-- Constants and collaborators of the handlers, all declared outside `pager.c`.
`ext2_getblk index create` gives the returned error and the block stored through
the result pointer; `dev_read_sync addr amount` gives the returned error and the
page-sized region it delivers; `block_size_bits` is `EXT2_BLOCK_SIZE_BITS (sblock)`. -/
structure pager_env where
  vm_page_size : Nat
  DEV_BSIZE : Nat
  block_size : Nat
  block_size_bits : Nat
  ext2_getblk : Nat → Bool → error_t × Nat
  dev_read_sync : Nat → Nat → error_t × List Nat
  dev_write_sync : Nat → List Nat → Nat → error_t
  diskfs_catch_exception : error_t

/-- What a handler sees of its `struct user_pager_info`: the discriminant and,
for a file pager, `np->allocsize`. -/
structure pager_obj where
  type : pager_type
  allocsize : Nat
deriving DecidableEq, Repr

/-- The state a handler changes: the allocation lock `np->dn->allocptrlock` of
the pager node, and the calls made so far. -/
structure pager_world where
  allocptrlock : rwlock
  events : List io_event
deriving DecidableEq, Repr

/-- Result of `find_address`: the returned error, the values stored through
`addr`, `disksize` and `nplock` (`nplock = true` when `*nplock` is non-null), and
the state.  On the range-error path `addr` and `disksize` are not stored; they are
`0` here and no caller reads them. -/
structure resolved where
  err : error_t
  addr : Nat
  disksize : Nat
  nplock : Bool
  world : pager_world
deriving DecidableEq, Repr

/-- The function `find_address` (lines 38-74). -/
def find_address (env : pager_env) (upi : pager_obj) (offset : Nat) (w : pager_world) :
    resolved :=
  match upi.type with
  | .DISK =>
    { err := 0, addr := offset / env.DEV_BSIZE, disksize := env.vm_page_size, nplock := false,
      world := w }
  | .FILE_DATA =>
    let w1 : pager_world := { w with allocptrlock := rwlock_reader_lock w.allocptrlock }
    if offset ≥ upi.allocsize then
      { err := EIO, addr := 0, disksize := 0, nplock := true,
        world := { w1 with allocptrlock := rwlock_reader_unlock w1.allocptrlock } }
    else
      let disksize :=
        if offset + env.vm_page_size > upi.allocsize then upi.allocsize - offset
        else env.vm_page_size
      let r := env.ext2_getblk (offset / env.block_size) false
      { err := r.1, addr := r.2, disksize := disksize, nplock := true,
        world := { w1 with events := w1.events ++ [.getblk (offset / env.block_size) false] } }

/-- Modelled from the spec: `vm_allocate` (declared outside these files) delivers
a zero-filled region of `size` bytes. -/
def vm_allocate (size : Nat) : List Nat := List.replicate size 0

/-- The call `bzero (buf + off, len)` on a buffer held as a list of bytes. -/
def bzero (buf : List Nat) (off len : Nat) : List Nat :=
  buf.take off ++ List.replicate len 0 ++ buf.drop (off + len)

/-- Result of `pager_read_page`: the returned error, the values stored through
`buf` and `writelock` (`none` when nothing is stored), and the state. -/
structure read_result where
  err : error_t
  buf : Option (List Nat)
  writelock : Option Nat
  world : pager_world
deriving DecidableEq, Repr

/-- The function `pager_read_page` (lines 79-111). -/
def pager_read_page (env : pager_env) (pager : pager_obj) (page : Nat) (w : pager_world) :
    read_result :=
  let r := find_address env pager page w
  if r.err ≠ 0 then
    { err := r.err, buf := none, writelock := none, world := r.world }
  else
    let out : read_result :=
      if r.addr ≠ 0 then
        let d := env.dev_read_sync r.addr r.disksize
        { err := d.1,
          buf := some (if d.1 = 0 ∧ r.disksize ≠ env.vm_page_size
            then bzero d.2 r.disksize (env.vm_page_size - r.disksize) else d.2),
          writelock := some 0,
          world := { r.world with events := r.world.events ++ [.dev_read r.addr r.disksize] } }
      else
        { err := r.err,
          buf := some (vm_allocate env.vm_page_size),
          writelock := some 1,
          world := { r.world with events := r.world.events ++ [.vm_allocate env.vm_page_size] } }
    if r.nplock then
      { out with world :=
          { out.world with allocptrlock := rwlock_reader_unlock out.world.allocptrlock } }
    else out

/-- The function `pager_write_page` (lines 115-144). -/
def pager_write_page (env : pager_env) (pager : pager_obj) (page : Nat) (buf : List Nat)
    (w : pager_world) : error_t × pager_world :=
  let r := find_address env pager page w
  if r.err ≠ 0 then
    (r.err, r.world)
  else
    let out : error_t × pager_world :=
      if r.addr ≠ 0 then
        (env.dev_write_sync r.addr buf r.disksize,
          { r.world with events := r.world.events ++ [.dev_write r.addr r.disksize] })
      else
        (0, { r.world with events := r.world.events ++ [.ext2_error] })
    if r.nplock then
      (out.1, { out.2 with allocptrlock := rwlock_reader_unlock out.2.allocptrlock })
    else out

/-- The function `pager_unlock_page` (lines 148-182). -/
def pager_unlock_page (env : pager_env) (pager : pager_obj) (address : Nat)
    (w : pager_world) : error_t × pager_world :=
  match pager.type with
  | .DISK => (0, w)
  | .FILE_DATA =>
    let w1 : pager_world := { w with allocptrlock := rwlock_writer_lock w.allocptrlock }
    if address + env.vm_page_size
        > ((pager.allocsize >>> env.block_size_bits) <<< env.block_size_bits) then
      ( EIO, { allocptrlock := rwlock_writer_unlock w1.allocptrlock,
               events := w1.events ++ [.ext2_error] })
    else
      let err := env.diskfs_catch_exception
      let w2 : pager_world := { w1 with events := w1.events ++ [.catch_exception] }
      let out : error_t × pager_world :=
        if err = 0 then
          ((env.ext2_getblk (address / env.block_size) true).1,
            { w2 with events := w2.events ++ [.getblk (address / env.block_size) true] })
        else (err, w2)
      (out.1, { allocptrlock := rwlock_writer_unlock out.2.allocptrlock,
                events := out.2.events ++ [.end_catch_exception] })

/-- The function `pager_report_extent` (lines 186-201): the stored `(offset, size)`. -/
def pager_report_extent (diskpagersize : Nat) (pager : pager_obj) : Nat × Nat :=
  match pager.type with
  | .DISK => (0, diskpagersize)
  | .FILE_DATA => (0, pager.allocsize)

/-! ## pager.c : pager lifecycle and the Registry list

`diskfs_get_filemap` asserts that the node is a directory, a regular file or a
long symbolic link; that is a precondition on the caller and the node mode is not
part of the state below. -/

/-- The cell a `prevp` field points to: `&filepagerlist`, or `&u->next` for the
pager at address `u`. -/
inductive ptr_cell
  | filepagerlist
  | next_of (upi : Nat)
deriving DecidableEq, Repr

/-- A `struct user_pager_info`; `np` names the node, `p` is the `struct pager *`
handle from the pager library. -/
structure user_pager_info where
  type : pager_type
  np : Nat
  p : Nat
  next : Option Nat
  prevp : ptr_cell
deriving DecidableEq, Repr

/-- The state the lifecycle functions work on: the global `filepagerlist`, the
allocated `struct user_pager_info` objects by address, `np->dn->fileinfo` by node,
the count of lightweight references by node, and the number of send rights made
for the port of each pager handle. -/
structure fs_state where
  filepagerlist : Option Nat
  mem : Nat → Option user_pager_info
  fileinfo : Nat → Option Nat
  light_refs : Nat → Int
  send_rights : Nat → Nat

/-- The state before any pager exists. -/
def initial_state : fs_state :=
  { filepagerlist := none, mem := fun _ => none, fileinfo := fun _ => none,
    light_refs := fun _ => 0, send_rights := fun _ => 0 }

/-- Modelled from the spec: `diskfs_nref_light` (declared outside these files)
takes one lightweight reference on the node `np`. -/
def diskfs_nref_light (light_refs : Nat → Int) (np : Nat) : Nat → Int :=
  Function.update light_refs np (light_refs np + 1)

/-- Modelled from the spec: `diskfs_nrele_light` (declared outside these files)
releases one lightweight reference on the node `np`. -/
def diskfs_nrele_light (light_refs : Nat → Int) (np : Nat) : Nat → Int :=
  Function.update light_refs np (light_refs np - 1)

/-- Modelled from the spec: `pager_get_port` (declared outside these files) gives
the port of a pager handle; the port is named by the handle. -/
def pager_get_port (p : Nat) : Nat := p

/-- Modelled from the spec: `mach_port_insert_right` with
`MACH_MSG_TYPE_MAKE_SEND` (declared outside these files) makes one send right for
the port `right`. -/
def mach_port_insert_right (send_rights : Nat → Nat) (right : Nat) : Nat → Nat :=
  Function.update send_rights right (send_rights right + 1)

/-- The statement `target->prevp = cell` for a non-null `target`; `none` when
`target` is not an allocated object. -/
def store_prevp (mem : Nat → Option user_pager_info) (target : Option Nat) (cell : ptr_cell) :
    Option (Nat → Option user_pager_info) :=
  match target with
  | none => some mem
  | some n =>
    match mem n with
    | none => none
    | some o => some (Function.update mem n (some { o with prevp := cell }))

/-- The function `diskfs_get_filemap` (lines 267-304).  `malloc_result` is the
address `malloc` returns and `pager_create_result` the handle `pager_create`
returns, both used only when a pager is created.  The result is the new state and
the returned port right; `none` when the code dereferences a pointer to no
allocated object. -/
def diskfs_get_filemap (s : fs_state) (np malloc_result pager_create_result : Nat) :
    Option (fs_state × Nat) :=
  let created : Option fs_state :=
    match s.fileinfo np with
    | some _ => some s
    | none =>
      let upi := malloc_result
      let o : user_pager_info :=
        { type := .FILE_DATA, np := np, p := pager_create_result,
          next := s.filepagerlist, prevp := .filepagerlist }
      match store_prevp (Function.update s.mem upi (some o)) o.next (.next_of upi) with
      | none => none
      | some mem =>
        some { s with
          mem := mem
          light_refs := diskfs_nref_light s.light_refs np
          fileinfo := Function.update s.fileinfo np (some upi)
          filepagerlist := some upi }
  match created with
  | none => none
  | some s1 =>
    match s1.fileinfo np with
    | none => none
    | some u =>
      match s1.mem u with
      | none => none
      | some o =>
        let right := pager_get_port o.p
        some ({ s1 with send_rights := mach_port_insert_right s1.send_rights right }, right)

/-- The statement `*cell = val`: a store to `filepagerlist` or to `v->next`. -/
def store_cell (head : Option Nat) (mem : Nat → Option user_pager_info) (cell : ptr_cell)
    (val : Option Nat) : Option (Option Nat × (Nat → Option user_pager_info)) :=
  match cell with
  | .filepagerlist => some (val, mem)
  | .next_of v =>
    match mem v with
    | none => none
    | some o => some (head, Function.update mem v (some { o with next := val }))

/-- The function `pager_clear_user_data` (lines 205-217); `none` when the
assertion fails or the code dereferences a pointer to no allocated object. -/
def pager_clear_user_data (s : fs_state) (upi : Nat) : Option fs_state :=
  match s.mem upi with
  | none => none
  | some o =>
    if o.type ≠ .FILE_DATA then none
    else
      match store_cell s.filepagerlist s.mem o.prevp o.next with
      | none => none
      | some (head, mem1) =>
        match store_prevp mem1 o.next o.prevp with
        | none => none
        | some mem2 =>
          some { s with
            fileinfo := Function.update s.fileinfo o.np none
            light_refs := diskfs_nrele_light s.light_refs o.np
            filepagerlist := head
            mem := Function.update mem2 upi none }

/-- The Registry list: `is_registry mem cell p l` says that the chain of `next`
pointers starting with the pointer `p` stored in `cell` visits exactly the file
pagers `l`, in order, ends with a null pointer, and that each `prevp` points to
the cell holding the pointer to its pager. -/
def is_registry (mem : Nat → Option user_pager_info) : ptr_cell → Option Nat → List Nat → Prop
  | _, p, [] => p = none
  | cell, p, u :: l =>
    p = some u ∧ ∃ o, mem u = some o ∧ o.type = .FILE_DATA ∧ o.prevp = cell ∧
      is_registry mem (.next_of u) o.next l

/-- The Registry list of a state. -/
def registry (s : fs_state) (l : List Nat) : Prop :=
  is_registry s.mem .filepagerlist s.filepagerlist l

/-- States reachable from `initial_state` by `diskfs_get_filemap` (where `malloc`
returns the address of no allocated object) and by `pager_clear_user_data` on a
live file pager, one that some node points to. -/
inductive reachable : fs_state → Prop
  | init : reachable initial_state
  | get_filemap (s s1 : fs_state) (np a h r : Nat) :
      reachable s → s.mem a = none → diskfs_get_filemap s np a h = some (s1, r) →
      reachable s1
  | clear_user_data (s s1 : fs_state) (n u : Nat) :
      reachable s → s.fileinfo n = some u → pager_clear_user_data s u = some s1 →
      reachable s1

/-! ## pager.c : `pager_traverse` -/

/-- Calls made by `pager_traverse`, in program order. -/
inductive traverse_event
  | reference (p : Nat)
  | func (upi : Nat)
  | unreference (p : Nat)
deriving DecidableEq, Repr

/-- The state `pager_traverse` changes: the reference count of each pager
handle, the calls made so far, and the state `user` that `func` works on. -/
structure traverse_world (σ : Type) where
  pager_refs : Nat → Int
  events : List traverse_event
  user : σ

/-- Modelled from the spec: `pager_reference` (declared outside these files)
takes one reference on the pager handle `p`. -/
def pager_reference (pager_refs : Nat → Int) (p : Nat) : Nat → Int :=
  Function.update pager_refs p (pager_refs p + 1)

/-- Modelled from the spec: `pager_unreference` (declared outside these files)
releases one reference on the pager handle `p`. -/
def pager_unreference (pager_refs : Nat → Int) (p : Nat) : Nat → Int :=
  Function.update pager_refs p (pager_refs p - 1)

/-- The first loop of `pager_traverse` (lines 367-374):
`for (p = filepagerlist; p; p = p->next)`, pushing each pager on the local `list`
and taking a reference on its handle.  `fuel` bounds the number of iterations. -/
def traverse_snapshot {σ : Type} (mem : Nat → Option user_pager_info) :
    Nat → Option Nat → List Nat → traverse_world σ → Option (List Nat × traverse_world σ)
  | 0, _, _, _ => none
  | _ + 1, none, list, w => some (list, w)
  | fuel + 1, some p, list, w =>
    match mem p with
    | none => none
    | some o =>
      traverse_snapshot mem fuel o.next (p :: list)
        { w with
          pager_refs := pager_reference w.pager_refs o.p
          events := w.events ++ [.reference o.p] }

/-- The second loop of `pager_traverse` (lines 377-381):
`for (i = list; i; i = i->next) { (*func)(i->p); pager_unreference (i->p->p); }`. -/
def traverse_invoke {σ : Type} (mem : Nat → Option user_pager_info) (func : Nat → σ → σ) :
    List Nat → traverse_world σ → Option (traverse_world σ)
  | [], w => some w
  | u :: rest, w =>
    match mem u with
    | none => none
    | some o =>
      traverse_invoke mem func rest
        { pager_refs := pager_unreference w.pager_refs o.p
          events := w.events ++ [.func u, .unreference o.p]
          user := func u w.user }

/-- The function `pager_traverse` (lines 359-384); `diskpager` is the address of
the device pager.  The result is `none` when `fuel` iterations do not reach the end
of the list or a pointer to no allocated object is dereferenced. -/
def pager_traverse {σ : Type} (s : fs_state) (diskpager : Nat) (func : Nat → σ → σ)
    (fuel : Nat) (w : traverse_world σ) : Option (traverse_world σ) :=
  match traverse_snapshot s.mem fuel s.filepagerlist [] w with
  | none => none
  | some (list, w1) =>
    match traverse_invoke s.mem func list w1 with
    | none => none
    | some w2 =>
      some { w2 with events := w2.events ++ [.func diskpager], user := func diskpager w2.user }

/-! ## Definitions used by the statements and proofs -/

/-- The test of lines 69-72 on exact integers.  The `exact_` functions repeat
the walk without any wrap-around; they are the comparison system of the proofs,
and the walk agrees with them as long as every value fits its type. -/
def exact_add_new_run (runs : List store_run) (block : Nat) : Bool :=
  match runs.getLast? with
  | none => true
  | some run =>
    if block ≠ 0 ∧ 0 ≤ run.start then
      decide ((block : Int) ≠ run.start + run.length)
    else
      decide (block ≠ 0 ∨ 0 ≤ run.start)

/-- Line 95 on exact integers. -/
def exact_extend_current_run (runs : List store_run) (k : Nat) : List store_run :=
  match runs.getLast? with
  | none => runs
  | some run => runs.dropLast ++ [{ run with length := run.length + ((1 <<< k : Nat) : Int) }]

/-- Lines 58-68 on exact integers. -/
def exact_shifted_block (k : Nat) (r : error_t × Nat) : Nat :=
  (if r.1 = EINVAL then 0 else r.2) <<< k

/-- Lines 90-91 on exact integers. -/
def exact_fresh_run (block : Nat) : store_run :=
  { start := if block ≠ 0 then (block : Int) else -1, length := 0 }

/-- The loop body on exact integers. -/
def exact_walk_body (ext2_getblk : Nat → Bool → error_t × Nat) (realloc_ok : Nat → Bool)
    (k : Nat) (s : walk_state) : walk_state × Bool :=
  let r := ext2_getblk s.index false
  let index := s.index + 1
  if r.1 ≠ EINVAL ∧ r.1 ≠ 0 then
    ({ s with err := r.1, index := index }, true)
  else
    let block := exact_shifted_block k r
    if exact_add_new_run s.runs block then
      if s.runs.length = s.runs_alloced then
        let runs_alloced := s.runs_alloced * 2
        if realloc_ok runs_alloced then
          ({ err := 0, index := index,
             runs := exact_extend_current_run (s.runs ++ [exact_fresh_run block]) k,
             runs_alloced := runs_alloced }, false)
        else
          ({ err := ENOMEM, index := index, runs := s.runs, runs_alloced := runs_alloced }, true)
      else
        ({ err := 0, index := index,
           runs := exact_extend_current_run (s.runs ++ [exact_fresh_run block]) k,
           runs_alloced := s.runs_alloced }, false)
    else
      ({ err := 0, index := index, runs := exact_extend_current_run s.runs k,
         runs_alloced := s.runs_alloced }, false)

/-- The loop on exact integers. -/
def exact_walk_loop (ext2_getblk : Nat → Bool → error_t × Nat) (realloc_ok : Nat → Bool)
    (k : Nat) : Nat → walk_state → walk_state
  | 0, s => s
  | num_fs_blocks + 1, s =>
    let r := exact_walk_body ext2_getblk realloc_ok k s
    if r.2 then r.1 else exact_walk_loop ext2_getblk realloc_ok k num_fs_blocks r.1

/-- Two consecutive runs that the walk would have merged. -/
def mergeable (a b : store_run) : Prop :=
  (a.start = -1 ∧ b.start = -1) ∨ (a.start ≠ -1 ∧ b.start ≠ -1 ∧ b.start = a.start + a.length)

/-- The loop invariant on the run list: every run is a hole or has a positive
start, has positive length, and no two consecutive runs are mergeable. -/
def runs_inv (runs : List store_run) : Prop :=
  (∀ r ∈ runs, (r.start = -1 ∨ 0 < r.start) ∧ 0 < r.length) ∧
    List.Chain' (fun a b => ¬ mergeable a b) runs

/-- The device blocks of one filesystem block whose shifted address is `block`,
`0` standing for a hole. -/
def block_cells (k block : Nat) : List dev_addr :=
  if block = 0 then List.replicate (2 ^ k) none
  else (List.range (2 ^ k)).map (fun j => some (((block + j : Nat) : Int)))

/-- Bounds on a run after `idx` iterations: a hole run is no longer than the
blocks walked, and the end of an address run fits the signed fields. -/
def run_fits (w k idx : Nat) (r : store_run) : Prop :=
  (r.start = -1 → r.length ≤ ((idx * 2 ^ k : Nat) : Int)) ∧
    (r.start ≠ -1 → 2 * (r.start + r.length) < ((2 ^ w : Nat) : Int))

/-- Bounds on the state of the walk: there are no more runs than blocks walked,
and the current run fits. -/
def walk_fits (w k : Nat) (s : walk_state) : Prop :=
  s.runs.length ≤ s.index ∧ ∀ last, s.runs.getLast? = some last → run_fits w k s.index last

/-- An environment whose block size and page size are 4096 bytes, whose lookup
maps block `i` to disk address `10 + i`, and whose device delivers the page
`region0` at address 10 and `region1` elsewhere. -/
def scenarioA_env (region0 region1 : List Nat) : pager_env :=
  { vm_page_size := 4096, DEV_BSIZE := 512, block_size := 4096, block_size_bits := 12,
    ext2_getblk := fun i _ => (0, 10 + i),
    dev_read_sync := fun addr _ => (0, if addr = 10 then region0 else region1),
    dev_write_sync := fun _ _ _ => 0,
    diskfs_catch_exception := 0 }

/-- A file pager whose node has `allocsize` one page and a half. -/
def scenarioA_pager : pager_obj := { type := .FILE_DATA, allocsize := 6144 }

/-- The state with no lock held and no call made. -/
def idle_world : pager_world := { allocptrlock := { readers := 0, writers := 0 }, events := [] }

/-- The page the device delivers for the first block of Scenario A. -/
def scenarioA_block0 : List Nat := List.replicate 4096 0xAA

/-- The page the device delivers for the second block of Scenario A. -/
def scenarioA_block1 : List Nat := List.replicate 4096 0x55

/-- An environment with 4096-byte pages and blocks in which every block is a hole:
the lookup succeeds with address `0`. -/
def hole_env : pager_env :=
  { vm_page_size := 4096, DEV_BSIZE := 512, block_size := 4096, block_size_bits := 12,
    ext2_getblk := fun _ _ => (0, 0),
    dev_read_sync := fun _ _ => (0, []),
    dev_write_sync := fun _ _ _ => 0,
    diskfs_catch_exception := 0 }

/-- An environment with 4096-byte pages and blocks whose lookup-or-allocate
succeeds with block `7` and whose lookup without allocation reports `EINVAL`, the
error `storeinfo.c` expects from `ext2_getblk` for a hole. -/
def failing_lookup_env : pager_env :=
  { vm_page_size := 4096, DEV_BSIZE := 512, block_size := 4096, block_size_bits := 12,
    ext2_getblk := fun _ create => if create then (0, 7) else (EINVAL, 0),
    dev_read_sync := fun _ _ => (0, []),
    dev_write_sync := fun _ _ _ => 0,
    diskfs_catch_exception := 0 }

/-- A file pager whose node has `allocsize` two blocks of 4096 bytes. -/
def two_block_pager : pager_obj := { type := .FILE_DATA, allocsize := 8192 }

/-- The invariant of the lifecycle functions, for the Registry list `l`: the
list is the chain from `filepagerlist`, it has no repetition, every pager of the
list is pointed to by its node, and every node pointer refers to a pager of the
list whose back-reference is that node. -/
structure registry_inv (s : fs_state) (l : List Nat) : Prop where
  chain : registry s l
  nodup : l.Nodup
  list_live : ∀ u ∈ l, ∃ o, s.mem u = some o ∧ s.fileinfo o.np = some u
  live_list : ∀ n u, s.fileinfo n = some u → u ∈ l ∧ ∃ o, s.mem u = some o ∧ o.np = n

/-- The state after `diskfs_get_filemap` for node `5` in the initial state, with
the pager allocated at address `100` and the handle `200`. -/
def one_pager_state : fs_state :=
  { filepagerlist := some 100,
    mem := Function.update (fun _ => none) 100
      (some { type := .FILE_DATA, np := 5, p := 200, next := none, prevp := .filepagerlist }),
    fileinfo := Function.update (fun _ => none) 5 (some 100),
    light_refs := Function.update (fun _ => 0) 5 (0 + 1),
    send_rights := Function.update (fun _ => 0) 200 (0 + 1) }

/-- The node `u->np` of the pager at address `u`, when `u` is allocated. -/
def node_of (mem : Nat → Option user_pager_info) (u : Nat) : Option Nat :=
  (mem u).map (fun o => o.np)

/-- The handle `u->p` of the pager at address `u` (`0` when `u` is not allocated). -/
def handle_of (mem : Nat → Option user_pager_info) (u : Nat) : Nat :=
  match mem u with
  | some o => o.p
  | none => 0

/-- Reference counts after adding `d` to the count of each handle of `hs` in turn. -/
def bump_refs (d : Int) (hs : List Nat) (refs : Nat → Int) : Nat → Int :=
  hs.foldl (fun r hd => Function.update r hd (r hd + d)) refs

/-- The calls that `pager_traverse` makes on the Registry list `l`: a reference
on the handle of each pager in list order, then, for each pager in the reverse
order, `func` followed by the release of its reference, then `func` on the
device pager. -/
def traverse_calls (mem : Nat → Option user_pager_info) (l : List Nat) (diskpager : Nat) :
    List traverse_event :=
  l.map (fun u => traverse_event.reference (handle_of mem u))
    ++ l.reverse.flatMap (fun u =>
      [traverse_event.func u, traverse_event.unreference (handle_of mem u)])
    ++ [traverse_event.func diskpager]

/-- The pagers on which a list of calls invokes `func`, in order. -/
def invoked : List traverse_event → List Nat
  | [] => []
  | .func u :: es => u :: invoked es
  | _ :: es => invoked es

/-- A state with the device pager at address `1` and one file pager at address
`100`, which is the whole Registry list. -/
def traverse_state : fs_state :=
  { filepagerlist := some 100,
    mem := fun x =>
      if x = 1 then
        some { type := .DISK, np := 0, p := 50, next := none, prevp := .filepagerlist }
      else if x = 100 then
        some { type := .FILE_DATA, np := 5, p := 200, next := none, prevp := .filepagerlist }
      else none,
    fileinfo := Function.update (fun _ => none) 5 (some 100),
    light_refs := Function.update (fun _ => 0) 5 1,
    send_rights := fun _ => 0 }

/-! # Theorems -/

/-! ## Proofs for the extent walk -/

theorem exact_extend_current_run_concat (l : List store_run) (r : store_run) (k : Nat) :
    exact_extend_current_run (l ++ [r]) k
      = l ++ [{ r with length := r.length + ((2 ^ k : Nat) : Int) }] := by
  simp [exact_extend_current_run, List.getLast?_concat, List.dropLast_concat, Nat.one_shiftLeft]

theorem two_pow_pos_int (k : Nat) : (0 : Int) < ((2 ^ k : Nat) : Int) := by
  have : 0 < 2 ^ k := Nat.two_pow_pos k
  exact_mod_cast this

theorem runs_inv_nil : runs_inv [] := by
  simp [runs_inv]

theorem runs_inv_concat (l : List store_run) (r : store_run) (hl : runs_inv l)
    (hr : (r.start = -1 ∨ 0 < r.start) ∧ 0 < r.length)
    (hm : ∀ a, l.getLast? = some a → ¬ mergeable a r) : runs_inv (l ++ [r]) := by
  refine ⟨?_, ?_⟩
  · intro x hx
    rcases List.mem_append.1 hx with h | h
    · exact hl.1 x h
    · simp at h; subst h; exact hr
  · rw [List.chain'_append]
    refine ⟨hl.2, List.chain'_singleton r, ?_⟩
    intro x hx y hy
    simp at hy hx
    subst hy
    exact hm x hx

theorem runs_inv_init (l : List store_run) (r : store_run) (h : runs_inv (l ++ [r])) :
    runs_inv l ∧ (∀ a, l.getLast? = some a → ¬ mergeable a r) ∧
      ((r.start = -1 ∨ 0 < r.start) ∧ 0 < r.length) := by
  refine ⟨⟨fun x hx => h.1 x (List.mem_append_left _ hx), ?_⟩, ?_, ?_⟩
  · exact (List.chain'_append.1 h.2).1
  · intro a ha
    exact (List.chain'_append.1 h.2).2.2 a (by simpa using ha) r (by simp)
  · exact h.1 r (by simp)

theorem expand_runs_concat (l : List store_run) (r : store_run) :
    expand_runs (l ++ [r]) = expand_runs l ++ expand_run r := by
  simp [expand_runs, List.flatMap_append]

theorem toNat_add_two_pow (x : Int) (k : Nat) (hx : 0 ≤ x) :
    (x + ((2 ^ k : Nat) : Int)).toNat = x.toNat + 2 ^ k := by
  rw [Int.toNat_add hx (Int.ofNat_nonneg _), Int.toNat_natCast]

/-- Extending a hole run by `2^k` device blocks appends `2^k` holes. -/
theorem expand_run_extend_hole (r : store_run) (k : Nat) (hs : r.start = -1)
    (hl : 0 ≤ r.length) :
    expand_run { r with length := r.length + ((2 ^ k : Nat) : Int) }
      = expand_run r ++ List.replicate (2 ^ k) none := by
  simp only [expand_run, hs, if_true, toNat_add_two_pow _ _ hl, List.replicate_add]

/-- Extending an address run by `2^k` device blocks appends the `2^k` addresses
that follow it. -/
theorem expand_run_extend_addr (r : store_run) (k block : Nat) (hs : r.start ≠ -1)
    (hl : 0 ≤ r.length) (hb : (block : Int) = r.start + r.length) :
    expand_run { r with length := r.length + ((2 ^ k : Nat) : Int) }
      = expand_run r ++ (List.range (2 ^ k)).map (fun j => some (((block + j : Nat) : Int))) := by
  simp only [expand_run, hs, if_false, toNat_add_two_pow _ _ hl, List.range_add,
    List.map_append, List.map_map]
  congr 1
  apply List.map_congr_left
  intro j _
  simp only [Function.comp]
  congr 1
  have : ((r.length.toNat : Nat) : Int) = r.length := Int.toNat_of_nonneg hl
  push_cast
  omega

/-- A fresh run of `2^k` device blocks expands to the block as the code sees it. -/
theorem expand_run_fresh (k block : Nat) :
    expand_run { start := if block ≠ 0 then (block : Int) else -1, length := 0 + ((2 ^ k : Nat) : Int) }
      = if block = 0 then List.replicate (2 ^ k) none
        else (List.range (2 ^ k)).map (fun j => some (((block + j : Nat) : Int))) := by
  have h0 : (0 + ((2 ^ k : Nat) : Int)).toNat = 2 ^ k := by
    rw [zero_add, Int.toNat_natCast]
  by_cases hb : block = 0
  · simp only [expand_run, hb, ne_eq, not_true_eq_false, if_false, if_true, h0]
  · have : (block : Int) ≠ -1 := by omega
    simp only [expand_run, hb, ne_eq, not_false_eq_true, if_true, this, if_false, h0]
    apply List.map_congr_left
    intro j _
    push_cast
    rfl

theorem add_run_step (runs : List store_run) (k block : Nat) (hinv : runs_inv runs)
    (hnew : exact_add_new_run runs block = true) :
    runs_inv (exact_extend_current_run (runs ++ [exact_fresh_run block]) k) ∧
      expand_runs (exact_extend_current_run (runs ++ [exact_fresh_run block]) k)
        = expand_runs runs ++ block_cells k block := by
  rw [exact_extend_current_run_concat]
  refine ⟨?_, ?_⟩
  · apply runs_inv_concat _ _ hinv
    · refine ⟨?_, ?_⟩
      · by_cases hb : block = 0
        · simp [exact_fresh_run, hb]
        · right
          simp only [exact_fresh_run, ne_eq, hb, not_false_eq_true, if_true]
          omega
      · simp only [exact_fresh_run, zero_add]; exact two_pow_pos_int k
    · intro a ha
      have hwf := hinv.1 a (List.mem_of_mem_getLast? ha)
      simp only [exact_add_new_run, ha] at hnew
      by_cases hb : block = 0
      · have hcond : ¬ (block ≠ 0 ∧ 0 ≤ a.start) := fun h => h.1 hb
        rw [if_neg hcond] at hnew
        have hor : block ≠ 0 ∨ 0 ≤ a.start := of_decide_eq_true hnew
        rcases hor with h | h
        · exact absurd hb h
        · rintro (⟨h1, _⟩ | ⟨_, h2, _⟩)
          · omega
          · simp [exact_fresh_run, hb] at h2
      · rintro (⟨_, h2⟩ | ⟨h1, _, h3⟩)
        · simp only [exact_fresh_run, ne_eq, hb, not_false_eq_true, if_true] at h2
          omega
        · have hs : 0 ≤ a.start := by
            rcases hwf.1 with h | h
            · exact absurd h h1
            · omega
          rw [if_pos ⟨hb, hs⟩] at hnew
          have hne : (block : Int) ≠ a.start + a.length := of_decide_eq_true hnew
          simp only [exact_fresh_run, ne_eq, hb, not_false_eq_true, if_true] at h3
          exact hne h3
  · rw [expand_runs_concat]
    congr 1
    exact expand_run_fresh k block

theorem extend_run_step (runs : List store_run) (k block : Nat) (hinv : runs_inv runs)
    (hnew : exact_add_new_run runs block = false) :
    runs_inv (exact_extend_current_run runs k) ∧
      expand_runs (exact_extend_current_run runs k) = expand_runs runs ++ block_cells k block := by
  rcases List.eq_nil_or_concat runs with rfl | ⟨init, last, rfl⟩
  · simp [exact_add_new_run] at hnew
  · rw [List.concat_eq_append] at hinv hnew ⊢
    obtain ⟨hi, hm, hwf⟩ := runs_inv_init init last hinv
    rw [exact_extend_current_run_concat]
    simp only [exact_add_new_run, List.getLast?_concat] at hnew
    have hlen : 0 ≤ last.length := le_of_lt hwf.2
    refine ⟨?_, ?_⟩
    · apply runs_inv_concat _ _ hi
      · exact ⟨hwf.1, add_pos hwf.2 (two_pow_pos_int k)⟩
      · intro a ha hmerge
        apply hm a ha
        rcases hmerge with ⟨h1, h2⟩ | ⟨h1, h2, h3⟩
        · exact Or.inl ⟨h1, h2⟩
        · exact Or.inr ⟨h1, h2, h3⟩
    · rw [expand_runs_concat, expand_runs_concat, List.append_assoc]
      congr 1
      by_cases hc : block ≠ 0 ∧ 0 ≤ last.start
      · rw [if_pos hc] at hnew
        have heq : (block : Int) = last.start + last.length := by
          have := of_decide_eq_false hnew
          exact not_not.1 this
        have hs : last.start ≠ -1 := by omega
        rw [expand_run_extend_addr last k block hs hlen heq]
        simp [block_cells, hc.1]
      · rw [if_neg hc] at hnew
        have hnor : ¬ (block ≠ 0 ∨ 0 ≤ last.start) := of_decide_eq_false hnew
        have hb : block = 0 := by
          by_contra h
          exact hnor (Or.inl h)
        have hs : last.start = -1 := by
          rcases hwf.1 with h | h
          · exact h
          · exact absurd (le_of_lt h) (fun h2 => hnor (Or.inr h2))
        rw [expand_run_extend_hole last k hs hlen]
        simp [block_cells, hb]

theorem block_cells_eq_walked (k : Nat) (r : error_t × Nat) :
    block_cells k (exact_shifted_block k r) = walked_block k r := by
  by_cases he : r.1 = EINVAL
  · simp [block_cells, exact_shifted_block, walked_block, he]
  · have hz : (r.2 <<< k = 0) = (r.2 = 0) := by
      apply propext
      rw [Nat.shiftLeft_eq]
      constructor
      · intro h
        rcases Nat.mul_eq_zero.1 h with h | h
        · exact h
        · exact absurd h (Nat.pos_iff_ne_zero.1 (Nat.two_pow_pos k))
      · intro h
        rw [h, Nat.zero_mul]
    simp only [block_cells, exact_shifted_block, walked_block, he, if_false, false_or, hz]

theorem exact_walk_body_eq (getblk : Nat → Bool → error_t × Nat) (realloc_ok : Nat → Bool)
    (k : Nat) (s : walk_state) :
    exact_walk_body getblk realloc_ok k s =
      if (getblk s.index false).1 ≠ EINVAL ∧ (getblk s.index false).1 ≠ 0 then
        ({ s with err := (getblk s.index false).1, index := s.index + 1 }, true)
      else if exact_add_new_run s.runs (exact_shifted_block k (getblk s.index false)) = true then
        if s.runs.length = s.runs_alloced then
          if realloc_ok (s.runs_alloced * 2) = true then
            ({ err := 0, index := s.index + 1,
               runs := exact_extend_current_run
                 (s.runs ++ [exact_fresh_run (exact_shifted_block k (getblk s.index false))]) k,
               runs_alloced := s.runs_alloced * 2 }, false)
          else
            ({ err := ENOMEM, index := s.index + 1, runs := s.runs,
               runs_alloced := s.runs_alloced * 2 }, true)
        else
          ({ err := 0, index := s.index + 1,
             runs := exact_extend_current_run
               (s.runs ++ [exact_fresh_run (exact_shifted_block k (getblk s.index false))]) k,
             runs_alloced := s.runs_alloced }, false)
      else
        ({ err := 0, index := s.index + 1, runs := exact_extend_current_run s.runs k,
           runs_alloced := s.runs_alloced }, false) := rfl

/-- One iteration of the loop keeps the invariant of the run list. -/
theorem exact_walk_body_inv (getblk : Nat → Bool → error_t × Nat) (realloc_ok : Nat → Bool)
    (k : Nat) (s : walk_state) (hinv : runs_inv s.runs) :
    runs_inv (exact_walk_body getblk realloc_ok k s).1.runs := by
  rw [exact_walk_body_eq]
  by_cases h1 : (getblk s.index false).1 ≠ EINVAL ∧ (getblk s.index false).1 ≠ 0
  · rw [if_pos h1]; exact hinv
  · rw [if_neg h1]
    by_cases h2 : exact_add_new_run s.runs (exact_shifted_block k (getblk s.index false)) = true
    · rw [if_pos h2]
      by_cases h3 : s.runs.length = s.runs_alloced
      · rw [if_pos h3]
        by_cases h4 : realloc_ok (s.runs_alloced * 2) = true
        · rw [if_pos h4]; exact (add_run_step s.runs k _ hinv h2).1
        · rw [if_neg h4]; exact hinv
      · rw [if_neg h3]; exact (add_run_step s.runs k _ hinv h2).1
    · rw [if_neg h2]
      exact (extend_run_step s.runs k _ hinv (by simpa using h2)).1

/-- One iteration of the loop, when the lookup succeeds or reports `EINVAL` and
`realloc` does not fail: no `break`, and the expansion grows by the block. -/
theorem exact_walk_body_expand (getblk : Nat → Bool → error_t × Nat) (realloc_ok : Nat → Bool)
    (k : Nat) (s : walk_state) (hinv : runs_inv s.runs)
    (hre : ∀ c, realloc_ok c = true)
    (hlook : (getblk s.index false).1 = 0 ∨ (getblk s.index false).1 = EINVAL) :
    (exact_walk_body getblk realloc_ok k s).2 = false ∧
      (exact_walk_body getblk realloc_ok k s).1.err = 0 ∧
      (exact_walk_body getblk realloc_ok k s).1.index = s.index + 1 ∧
      expand_runs (exact_walk_body getblk realloc_ok k s).1.runs
        = expand_runs s.runs ++ walked_block k (getblk s.index false) := by
  have hno : ¬ ((getblk s.index false).1 ≠ EINVAL ∧ (getblk s.index false).1 ≠ 0) := by
    rintro ⟨h1, h2⟩
    rcases hlook with h | h
    · exact h2 h
    · exact h1 h
  rw [← block_cells_eq_walked, exact_walk_body_eq, if_neg hno]
  by_cases h2 : exact_add_new_run s.runs (exact_shifted_block k (getblk s.index false)) = true
  · rw [if_pos h2, if_pos (hre _)]
    by_cases h3 : s.runs.length = s.runs_alloced
    · rw [if_pos h3]
      exact ⟨rfl, rfl, rfl, (add_run_step s.runs k _ hinv h2).2⟩
    · rw [if_neg h3]
      exact ⟨rfl, rfl, rfl, (add_run_step s.runs k _ hinv h2).2⟩
  · rw [if_neg h2]
    exact ⟨rfl, rfl, rfl, (extend_run_step s.runs k _ hinv (by simpa using h2)).2⟩

theorem exact_walk_loop_inv (getblk : Nat → Bool → error_t × Nat) (realloc_ok : Nat → Bool)
    (k n : Nat) (s : walk_state) (hinv : runs_inv s.runs) :
    runs_inv (exact_walk_loop getblk realloc_ok k n s).runs := by
  induction n generalizing s with
  | zero => exact hinv
  | succ n ih =>
    simp only [exact_walk_loop]
    split_ifs
    · exact exact_walk_body_inv getblk realloc_ok k s hinv
    · exact ih _ (exact_walk_body_inv getblk realloc_ok k s hinv)

theorem walked_map_succ (getblk : Nat → Bool → error_t × Nat) (k start n : Nat) :
    walked_map getblk k start (n + 1)
      = walked_block k (getblk start false) ++ walked_map getblk k (start + 1) n := by
  simp only [walked_map, List.range_succ_eq_map, List.flatMap_cons, List.flatMap_map,
    Nat.add_zero]
  congr 1
  apply List.flatMap_congr
  intro i _
  simp only [Function.comp, Nat.succ_eq_add_one]
  rw [Nat.add_assoc, Nat.add_comm 1 i]

theorem exact_walk_loop_expand (getblk : Nat → Bool → error_t × Nat) (realloc_ok : Nat → Bool)
    (k n : Nat) (s : walk_state) (hinv : runs_inv s.runs) (herr : s.err = 0)
    (hre : ∀ c, realloc_ok c = true)
    (hlook : ∀ i, i < n →
      (getblk (s.index + i) false).1 = 0 ∨ (getblk (s.index + i) false).1 = EINVAL) :
    (exact_walk_loop getblk realloc_ok k n s).err = 0 ∧
      expand_runs (exact_walk_loop getblk realloc_ok k n s).runs
        = expand_runs s.runs ++ walked_map getblk k s.index n := by
  induction n generalizing s with
  | zero => simp [exact_walk_loop, walked_map, herr]
  | succ n ih =>
    obtain ⟨hb, he, hi, hx⟩ := exact_walk_body_expand getblk realloc_ok k s hinv hre
      (by simpa using hlook 0 (Nat.succ_pos n))
    simp only [exact_walk_loop, hb, Bool.false_eq_true, if_false]
    have hinv1 := exact_walk_body_inv getblk realloc_ok k s hinv
    have := ih (exact_walk_body getblk realloc_ok k s).1 hinv1 he (by
      intro i hin
      rw [hi, Nat.add_assoc, Nat.add_comm 1 i]
      exact hlook (i + 1) (Nat.succ_lt_succ hin))
    rw [this.2, hx, hi, walked_map_succ, List.append_assoc]
    exact ⟨this.1, rfl⟩

/-! ## The walk in machine words agrees with the walk on exact integers -/

theorem to_unsigned_natCast (w x : Nat) : to_unsigned w (x : Int) = x % 2 ^ w := by
  unfold to_unsigned
  rw [← Int.natCast_mod, Int.toNat_natCast]

theorem to_unsigned_neg_one (w : Nat) : to_unsigned w (-1) = 2 ^ w - 1 := by
  unfold to_unsigned
  have hpos : 0 < 2 ^ w := Nat.two_pow_pos w
  generalize 2 ^ w = W at hpos
  have h1 : (-1 : Int) % (W : Int) = (W : Int) - 1 := by
    have h2 : (-1 + (W : Int) * 1) % (W : Int) = (-1 : Int) % (W : Int) :=
      Int.add_mul_emod_self_left _ _ _
    rw [← h2]
    have h3 : (-1 + (W : Int) * 1) = (W : Int) - 1 := by omega
    rw [h3]
    apply Int.emod_eq_of_lt <;> omega
  rw [h1]
  omega

theorem to_signed_of_lt (w x : Nat) (h : 2 * x < 2 ^ w) : to_signed w x = (x : Int) := by
  unfold to_signed
  have hx : x % 2 ^ w = x := Nat.mod_eq_of_lt (by omega)
  rw [hx, if_pos h]

theorem to_signed_max (w : Nat) (h : 2 ≤ 2 ^ w) : to_signed w (2 ^ w - 1) = -1 := by
  unfold to_signed
  have hx : (2 ^ w - 1) % 2 ^ w = 2 ^ w - 1 := Nat.mod_eq_of_lt (by omega)
  rw [hx]
  generalize 2 ^ w = W at h
  have hnot : ¬ 2 * (W - 1) < W := by omega
  rw [if_neg hnot]
  omega

theorem wrap_signed_of_fits (w : Nat) (x : Int) (h0 : 0 ≤ x) (h : 2 * x < ((2 ^ w : Nat) : Int)) :
    wrap_signed w x = x := by
  obtain ⟨n, rfl⟩ := Int.eq_ofNat_of_zero_le h0
  have hn : 2 * n < 2 ^ w := by exact_mod_cast h
  unfold wrap_signed
  rw [to_unsigned_natCast, Nat.mod_eq_of_lt (by omega), to_signed_of_lt w n hn]

theorem to_unsigned_wrap_of_fits (w : Nat) (x : Int) (h0 : 0 ≤ x)
    (h : 2 * x < ((2 ^ w : Nat) : Int)) : (to_unsigned w (wrap_signed w x) : Int) = x := by
  rw [wrap_signed_of_fits w x h0 h]
  obtain ⟨n, rfl⟩ := Int.eq_ofNat_of_zero_le h0
  have hn : 2 * n < 2 ^ w := by exact_mod_cast h
  rw [to_unsigned_natCast, Nat.mod_eq_of_lt (by omega)]

/-- The new run is the same in machine words when the shifted address fits the
signed `start`. -/
theorem fresh_run_eq_exact (w block : Nat) (hw : 2 ≤ 2 ^ w) (hb : 2 * block < 2 ^ w) :
    fresh_run w block = exact_fresh_run block := by
  unfold fresh_run exact_fresh_run
  by_cases h : block = 0
  · simp only [h, ne_eq, not_true_eq_false, if_false, to_unsigned_neg_one, to_signed_max w hw]
  · simp only [h, ne_eq, not_false_eq_true, if_true, to_signed_of_lt w block hb]

/-- The shifted address is the same in machine words when it fits `block_t`. -/
theorem shifted_block_eq_exact (w k : Nat) (r : error_t × Nat)
    (hb : r.1 ≠ EINVAL → r.2 <<< k < 2 ^ w) :
    shifted_block w k r = exact_shifted_block k r := by
  unfold shifted_block exact_shifted_block
  have hpos : 0 < 2 ^ w := Nat.two_pow_pos w
  by_cases h : r.1 = EINVAL
  · simp only [h, if_true, Nat.zero_shiftLeft]
    exact Nat.mod_eq_of_lt hpos
  · have h1 := hb h
    have h2 : r.2 < 2 ^ w := by
      rw [Nat.shiftLeft_eq] at h1
      exact lt_of_le_of_lt (Nat.le_mul_of_pos_right _ (Nat.two_pow_pos k)) h1
    simp only [h, if_false, Nat.mod_eq_of_lt h2, Nat.mod_eq_of_lt h1]

/-- The test for a new run is the same in machine words when the end of the
last address run fits the signed fields. -/
theorem add_new_run_eq_exact (w : Nat) (runs : List store_run) (block : Nat)
    (hlast : ∀ last, runs.getLast? = some last → 0 ≤ last.start →
      0 ≤ last.start + last.length ∧ 2 * (last.start + last.length) < ((2 ^ w : Nat) : Int)) :
    add_new_run w runs block = exact_add_new_run runs block := by
  unfold add_new_run exact_add_new_run
  cases hl : runs.getLast? with
  | none => rfl
  | some last =>
    simp only
    by_cases hc : block ≠ 0 ∧ 0 ≤ last.start
    · rw [if_pos hc, if_pos hc]
      obtain ⟨h0, h1⟩ := hlast last hl hc.2
      have := to_unsigned_wrap_of_fits w _ h0 h1
      congr 1
      apply propext
      constructor
      · intro hne heq
        apply hne
        have : ((block : Nat) : Int) = (to_unsigned w (wrap_signed w (last.start + last.length)) : Int) := by
          rw [this]; exact heq
        exact_mod_cast this
      · intro hne heq
        apply hne
        rw [← this, heq]
    · rw [if_neg hc, if_neg hc]

/-- Extending the last run is the same in machine words when the new length
fits the signed `length`. -/
theorem extend_current_run_eq_exact (w k : Nat) (runs : List store_run)
    (hk : 2 * 2 ^ k < 2 ^ w)
    (hlast : ∀ last, runs.getLast? = some last →
      0 ≤ last.length ∧ 2 * (last.length + ((2 ^ k : Nat) : Int)) < ((2 ^ w : Nat) : Int)) :
    extend_current_run w runs k = exact_extend_current_run runs k := by
  unfold extend_current_run exact_extend_current_run
  cases hl : runs.getLast? with
  | none => rfl
  | some last =>
    simp only
    obtain ⟨h0, h1⟩ := hlast last hl
    have hpow : (0 : Int) ≤ ((2 ^ k : Nat) : Int) := Int.ofNat_nonneg _
    have h2 : wrap_signed w ((1 <<< k : Nat) : Int) = ((2 ^ k : Nat) : Int) := by
      rw [Nat.one_shiftLeft]
      apply wrap_signed_of_fits w _ hpow
      exact_mod_cast hk
    rw [h2, wrap_signed_of_fits w _ (by omega) h1, Nat.one_shiftLeft]

/-- When no new run is added, the current run is a hole and so is the block, or
the block is the address that follows the current run. -/
theorem exact_add_new_run_false (runs : List store_run) (block : Nat) (hinv : runs_inv runs)
    (h : exact_add_new_run runs block = false) :
    ∃ init last, runs = init ++ [last] ∧ 0 < last.length ∧
      ((block = 0 ∧ last.start = -1) ∨
        (block ≠ 0 ∧ 0 < last.start ∧ (block : Int) = last.start + last.length)) := by
  rcases List.eq_nil_or_concat runs with rfl | ⟨init, last, rfl⟩
  · simp [exact_add_new_run] at h
  · rw [List.concat_eq_append] at hinv h ⊢
    obtain ⟨_, _, hwf⟩ := runs_inv_init init last hinv
    simp only [exact_add_new_run, List.getLast?_concat] at h
    refine ⟨init, last, rfl, hwf.2, ?_⟩
    by_cases hc : block ≠ 0 ∧ 0 ≤ last.start
    · rw [if_pos hc] at h
      have heq : (block : Int) = last.start + last.length := not_not.1 (of_decide_eq_false h)
      right
      refine ⟨hc.1, ?_, heq⟩
      rcases hwf.1 with h1 | h1
      · omega
      · exact h1
    · rw [if_neg hc] at h
      have hnor : ¬ (block ≠ 0 ∨ 0 ≤ last.start) := of_decide_eq_false h
      left
      refine ⟨by_contra fun hb => hnor (Or.inl hb), ?_⟩
      rcases hwf.1 with h1 | h1
      · exact h1
      · exact absurd (Or.inr (le_of_lt h1)) hnor

/-- One iteration in machine words is the iteration on exact integers, and keeps
the bounds, as long as the block walked and the block count fit the signed
fields of a run. -/
theorem walk_body_eq_exact (w : Nat) (getblk : Nat → Bool → error_t × Nat)
    (realloc_ok : Nat → Bool) (k n : Nat) (s : walk_state)
    (hinv : runs_inv s.runs) (hfit : walk_fits w k s) (hidx : s.index < n)
    (hn : 2 * (n * 2 ^ k) < 2 ^ w)
    (hb : (getblk s.index false).1 = 0 →
      2 * (((getblk s.index false).2 + 1) * 2 ^ k) < 2 ^ w) :
    walk_body w getblk realloc_ok k s = exact_walk_body getblk realloc_ok k s ∧
      ((exact_walk_body getblk realloc_ok k s).2 = false →
        walk_fits w k (exact_walk_body getblk realloc_ok k s).1 ∧
        (exact_walk_body getblk realloc_ok k s).1.index = s.index + 1) := by
  have hP : 0 < 2 ^ k := Nat.two_pow_pos k
  have hnP : (s.index + 1) * 2 ^ k ≤ n * 2 ^ k := Nat.mul_le_mul_right _ hidx
  have hsucc : (s.index + 1) * 2 ^ k = s.index * 2 ^ k + 2 ^ k := by ring
  have hidxP : s.index ≤ s.index * 2 ^ k := Nat.le_mul_of_pos_right _ hP
  have hidxW : s.index + 1 < 2 ^ w := by omega
  have hk : 2 * 2 ^ k < 2 ^ w := by omega
  have hw2 : 2 ≤ 2 ^ w := by omega
  have hindex : (s.index + 1) % 2 ^ w = s.index + 1 := Nat.mod_eq_of_lt hidxW
  rw [exact_walk_body_eq]
  simp only [walk_body]
  by_cases h1 : (getblk s.index false).1 ≠ EINVAL ∧ (getblk s.index false).1 ≠ 0
  · simp only [if_pos h1, hindex]
    exact ⟨trivial, fun h => by cases h⟩
  · have hr : (getblk s.index false).1 ≠ EINVAL → (getblk s.index false).1 = 0 := by
      intro he
      by_contra h0
      exact h1 ⟨he, h0⟩
    -- the shifted address
    have hshift : (getblk s.index false).1 ≠ EINVAL →
        2 * ((getblk s.index false).2 <<< k + 2 ^ k) < 2 ^ w := by
      intro he
      have := hb (hr he)
      rw [Nat.shiftLeft_eq]
      have h2 : ((getblk s.index false).2 + 1) * 2 ^ k
          = (getblk s.index false).2 * 2 ^ k + 2 ^ k := by ring
      omega
    have hblock : shifted_block w k (getblk s.index false)
        = exact_shifted_block k (getblk s.index false) :=
      shifted_block_eq_exact w k _ (fun he => by have := hshift he; omega)
    have hBfit : exact_shifted_block k (getblk s.index false) ≠ 0 →
        2 * (exact_shifted_block k (getblk s.index false) + 2 ^ k) < 2 ^ w := by
      intro hne
      by_cases he : (getblk s.index false).1 = EINVAL
      · simp [exact_shifted_block, he] at hne
      · simpa [exact_shifted_block, he] using hshift he
    have hB2 : 2 * exact_shifted_block k (getblk s.index false) < 2 ^ w := by
      by_cases hz : exact_shifted_block k (getblk s.index false) = 0
      · omega
      · have := hBfit hz; omega
    generalize exact_shifted_block k (getblk s.index false) = B at hblock hBfit hB2 ⊢
    -- the test for a new run
    have hadd : add_new_run w s.runs B = exact_add_new_run s.runs B := by
      apply add_new_run_eq_exact
      intro last hl hs
      have hwf := hinv.1 last (List.mem_of_mem_getLast? hl)
      have hf := (hfit.2 last hl).2 (by omega)
      exact ⟨by omega, hf⟩
    have hfresh : fresh_run w B = exact_fresh_run B := fresh_run_eq_exact w B hw2 hB2
    have hext1 : extend_current_run w (s.runs ++ [exact_fresh_run B]) k
        = exact_extend_current_run (s.runs ++ [exact_fresh_run B]) k := by
      apply extend_current_run_eq_exact w k _ hk
      intro last hl
      rw [List.getLast?_concat] at hl
      cases hl
      simp only [exact_fresh_run]
      constructor
      · exact le_refl _
      · have : 2 * ((2 ^ k : Nat) : Int) < ((2 ^ w : Nat) : Int) := by exact_mod_cast hk
        omega
    have hcastP : ((s.index * 2 ^ k : Nat) : Int) + ((2 ^ k : Nat) : Int)
        ≤ ((n * 2 ^ k : Nat) : Int) := by
      have : s.index * 2 ^ k + 2 ^ k ≤ n * 2 ^ k := by omega
      exact_mod_cast this
    have hcastn : 2 * ((n * 2 ^ k : Nat) : Int) < ((2 ^ w : Nat) : Int) := by exact_mod_cast hn
    have hcastB : B ≠ 0 → 2 * ((B : Int) + ((2 ^ k : Nat) : Int)) < ((2 ^ w : Nat) : Int) := by
      intro hne
      have := hBfit hne
      exact_mod_cast this
    have hcastsucc : (((s.index + 1) * 2 ^ k : Nat) : Int)
        = ((s.index * 2 ^ k : Nat) : Int) + ((2 ^ k : Nat) : Int) := by
      rw [hsucc]; push_cast; ring
    have hPpos : (0 : Int) < ((2 ^ k : Nat) : Int) := two_pow_pos_int k
    -- the state after a new run is added
    have hfit_add : ∀ ra : Nat, walk_fits w k
        { err := 0, index := s.index + 1,
          runs := exact_extend_current_run (s.runs ++ [exact_fresh_run B]) k,
          runs_alloced := ra } := by
      intro ra
      rw [exact_extend_current_run_concat]
      refine ⟨?_, ?_⟩
      · simp only [List.length_append, List.length_singleton]
        have := hfit.1
        omega
      · intro last hl
        rw [List.getLast?_concat] at hl
        cases hl
        simp only [run_fits, exact_fresh_run, zero_add]
        by_cases hz : B = 0
        · simp only [hz, ne_eq, not_true_eq_false, if_false, forall_const, not_true_eq_false,
            IsEmpty.forall_iff, and_true]
          rw [hcastsucc]
          have : (0 : Int) ≤ ((s.index * 2 ^ k : Nat) : Int) := Int.ofNat_nonneg _
          omega
        · have hne : (B : Int) ≠ -1 := by omega
          simp only [hz, ne_eq, not_false_eq_true, if_true, hne, IsEmpty.forall_iff, true_and,
            forall_const]
          exact hcastB hz
    simp only [if_neg h1, hindex, hblock, hadd, hfresh, hext1]
    by_cases h2 : exact_add_new_run s.runs B = true
    · simp only [h2, if_true]
      by_cases h3 : s.runs.length = s.runs_alloced
      · have hra : (s.runs_alloced * 2) % 2 ^ w = s.runs_alloced * 2 := by
          apply Nat.mod_eq_of_lt
          have := hfit.1
          omega
        simp only [h3, if_true, hra]
        by_cases h4 : realloc_ok (s.runs_alloced * 2) = true
        · simp only [h4, if_true, true_and]
          intro _
          exact ⟨hfit_add _, trivial⟩
        · have h4f : realloc_ok (s.runs_alloced * 2) = false := by simpa using h4
          simp only [h4f, Bool.false_eq_true, if_false, true_and]
          intro h
          cases h
      · simp only [h3, if_false, true_and]
        intro _
        exact ⟨hfit_add _, trivial⟩
    · have h2f : exact_add_new_run s.runs B = false := by simpa using h2
      obtain ⟨init, last, hruns, hlen, hcase⟩ := exact_add_new_run_false s.runs B hinv h2f
      have hlastq : s.runs.getLast? = some last := by rw [hruns, List.getLast?_concat]
      have hlf := hfit.2 last hlastq
      have hbound : 2 * (last.length + ((2 ^ k : Nat) : Int)) < ((2 ^ w : Nat) : Int) := by
        rcases hcase with ⟨_, hs⟩ | ⟨hB, hs, heq⟩
        · have := hlf.1 hs
          omega
        · have := hcastB hB
          omega
      have hext2 : extend_current_run w s.runs k = exact_extend_current_run s.runs k := by
        apply extend_current_run_eq_exact w k _ hk
        intro l2 hl2
        rw [hlastq] at hl2
        cases hl2
        exact ⟨le_of_lt hlen, hbound⟩
      simp only [h2, if_false, hext2, true_and, Bool.false_eq_true]
      intro _
      refine ⟨⟨?_, ?_⟩, trivial⟩
      · show (exact_extend_current_run s.runs k).length ≤ s.index + 1
        rw [hruns, exact_extend_current_run_concat]
        have := hfit.1
        rw [hruns] at this
        simp only [List.length_append, List.length_singleton] at this ⊢
        omega
      · intro l2 hl2
        have hl3 : (exact_extend_current_run s.runs k).getLast? = some l2 := hl2
        rw [hruns, exact_extend_current_run_concat, List.getLast?_concat] at hl3
        cases hl3
        simp only [run_fits]
        constructor
        · intro hs
          have := hlf.1 hs
          rw [hcastsucc]
          omega
        · intro hs
          rcases hcase with ⟨_, hs2⟩ | ⟨hB, _, heq⟩
          · exact absurd hs2 hs
          · have := hcastB hB
            omega

/-- The loop in machine words is the loop on exact integers as long as the
blocks walked and the block count fit the signed fields of a run. -/
theorem walk_loop_eq_exact (w : Nat) (getblk : Nat → Bool → error_t × Nat)
    (realloc_ok : Nat → Bool) (k n : Nat) (hn : 2 * (n * 2 ^ k) < 2 ^ w)
    (hb : ∀ i, i < n → (getblk i false).1 = 0 → 2 * (((getblk i false).2 + 1) * 2 ^ k) < 2 ^ w)
    (m : Nat) :
    ∀ s : walk_state, runs_inv s.runs → walk_fits w k s → s.index + m ≤ n →
      walk_loop w getblk realloc_ok k m s = exact_walk_loop getblk realloc_ok k m s := by
  induction m with
  | zero => intro s _ _ _; rfl
  | succ m ih =>
    intro s hinv hfit hm
    obtain ⟨heq, hnext⟩ := walk_body_eq_exact w getblk realloc_ok k n s hinv hfit (by omega) hn
      (hb s.index (by omega))
    simp only [walk_loop, exact_walk_loop, heq]
    cases hbr : (exact_walk_body getblk realloc_ok k s).2 with
    | true => simp
    | false =>
      simp only [Bool.false_eq_true, if_false]
      obtain ⟨hfit2, hidx2⟩ := hnext hbr
      exact ih _ (exact_walk_body_inv getblk realloc_ok k s hinv) hfit2 (by omega)

theorem walk_fits_initial (w k : Nat) :
    walk_fits w k { err := 0, index := 0, runs := [], runs_alloced := 10 } := by
  refine ⟨le_refl _, ?_⟩
  intro last hl
  simp at hl

theorem block_count_fits (w k n : Nat) (hn : 2 * (n * 2 ^ k) < 2 ^ w) : n % 2 ^ w = n := by
  apply Nat.mod_eq_of_lt
  have : n ≤ n * 2 ^ k := Nat.le_mul_of_pos_right _ (Nat.two_pow_pos k)
  omega

/-- C1 (amended): round trip of the extent walk, for machine words of `w` bits.
Let `n = st_blocks >> log2_stat_blocks_per_fs_block`.  When every lookup of the
blocks `0 .. n-1` succeeds or reports `EINVAL`, the run array is allocated and can
always grow, and the device addresses fit the signed fields of a run (`n << k`
and every `(b + 1) << k` are below `2^(w-1)`), the walk ends without error and
expanding its runs gives, block by block and in order, `2^k` holes for a lookup
that reported `EINVAL` or gave block number `0`, and the `2^k` addresses
`(b << k) + j` otherwise. -/
theorem storage_info_round_trip (w : Nat) (realloc_ok : Nat → Bool)
    (ext2_getblk : Nat → Bool → error_t × Nat) (st_blocks ls k : Nat)
    (hre : ∀ c, realloc_ok c = true)
    (hlook : ∀ i, i < st_blocks >>> ls →
      (ext2_getblk i false).1 = 0 ∨ (ext2_getblk i false).1 = EINVAL)
    (hn : 2 * ((st_blocks >>> ls) * 2 ^ k) < 2 ^ w)
    (hb : ∀ i, i < st_blocks >>> ls → (ext2_getblk i false).1 = 0 →
      2 * (((ext2_getblk i false).2 + 1) * 2 ^ k) < 2 ^ w) :
    (diskfs_S_file_get_storage_info w true realloc_ok ext2_getblk st_blocks ls k).1 = 0 ∧
      expand_runs
          (diskfs_S_file_get_storage_info w true realloc_ok ext2_getblk st_blocks ls k).2
        = walked_map ext2_getblk k 0 (st_blocks >>> ls) := by
  have hsim := walk_loop_eq_exact w ext2_getblk realloc_ok k (st_blocks >>> ls) hn hb
    (st_blocks >>> ls) { err := 0, index := 0, runs := [], runs_alloced := 10 } runs_inv_nil
    (walk_fits_initial w k) (by simp)
  have h := exact_walk_loop_expand ext2_getblk realloc_ok k (st_blocks >>> ls)
    { err := 0, index := 0, runs := [], runs_alloced := 10 } runs_inv_nil rfl hre
    (by intro i hi; simpa using hlook i hi)
  simp only [diskfs_S_file_get_storage_info, if_true, block_count_fits w k _ hn, hsim]
  refine ⟨h.1, ?_⟩
  rw [h.2]
  simp [expand_runs]

/-- Witness of C1 (amended) on the block map of Scenario C, with 32-bit words. -/
theorem storage_info_round_trip_witness :
    (diskfs_S_file_get_storage_info 32 true (fun _ => true) scenarioC_getblk 6 0 0).1 = 0 ∧
      expand_runs
          (diskfs_S_file_get_storage_info 32 true (fun _ => true) scenarioC_getblk 6 0 0).2
        = walked_map scenarioC_getblk 0 0 (6 >>> 0) :=
  storage_info_round_trip 32 (fun _ => true) scenarioC_getblk 6 0 0 (fun _ => rfl) (by decide)
    (by decide) (by decide)

/-- C1 as stated fails, with 32-bit words, on block maps all of whose lookups
succeed.  A lookup that gives block number `0` is walked as a hole, where the
direct map has the device address `0`.  The block `2^29` shifted by 3 wraps to
`0` and is walked as the hole run `(-1, 8)`, where the direct map has the
addresses `2^32 + j`.  When `realloc` fails at the eleventh run the walk ends with
`ENOMEM` and ten runs, and when `malloc` fails it ends with `ENOMEM` and no run,
where the direct map has eleven blocks. -/
theorem storage_info_round_trip_counterexample :
    ((∀ i, i < 1 >>> 0 →
        (zero_block_getblk i false).1 = 0 ∨ (zero_block_getblk i false).1 = EINVAL) ∧
      diskfs_S_file_get_storage_info 32 true (fun _ => true) zero_block_getblk 1 0 0
        = (0, [⟨-1, 1⟩]) ∧
      direct_map zero_block_getblk 0 (1 >>> 0) = [some 0] ∧
      expand_runs
          (diskfs_S_file_get_storage_info 32 true (fun _ => true) zero_block_getblk 1 0 0).2
        ≠ direct_map zero_block_getblk 0 (1 >>> 0)) ∧
    ((∀ i, i < 1 >>> 0 →
        (high_block_getblk i false).1 = 0 ∨ (high_block_getblk i false).1 = EINVAL) ∧
      diskfs_S_file_get_storage_info 32 true (fun _ => true) high_block_getblk 1 0 3
        = (0, [⟨-1, 8⟩]) ∧
      (direct_map high_block_getblk 3 (1 >>> 0)).head? = some (some 4294967296) ∧
      expand_runs
          (diskfs_S_file_get_storage_info 32 true (fun _ => true) high_block_getblk 1 0 3).2
        ≠ direct_map high_block_getblk 3 (1 >>> 0)) ∧
    ((∀ i, i < 11 >>> 0 →
        (scattered_getblk i false).1 = 0 ∨ (scattered_getblk i false).1 = EINVAL) ∧
      (diskfs_S_file_get_storage_info 32 true (fun _ => false) scattered_getblk 11 0 0).1
        = ENOMEM ∧
      (diskfs_S_file_get_storage_info 32 true (fun _ => false) scattered_getblk 11 0 0).2.length
        = 10 ∧
      expand_runs
          (diskfs_S_file_get_storage_info 32 true (fun _ => false) scattered_getblk 11 0 0).2
        ≠ direct_map scattered_getblk 0 (11 >>> 0) ∧
      diskfs_S_file_get_storage_info 32 false (fun _ => true) scattered_getblk 11 0 0
        = (ENOMEM, []) ∧
      expand_runs
          (diskfs_S_file_get_storage_info 32 false (fun _ => true) scattered_getblk 11 0 0).2
        ≠ direct_map scattered_getblk 0 (11 >>> 0)) := by
  decide

/-- C2 (amended): the run list of the extent walk is the minimal run-length
encoding, for machine words of `w` bits, when the device addresses fit the signed
fields of a run (`n << k` and every `(b + 1) << k` are below `2^(w-1)`, with
`n = st_blocks >> log2_stat_blocks_per_fs_block`).  Whatever the lookups and the
allocator do, every run of the list has positive length, two consecutive runs
are never both holes, and when both are addresses the second does not start
where the first ends.  On the block map of Scenario C (addresses 100,101,102, a
hole, 200,201, shift 0, 32-bit words) the list is `[(100,3),(-1,1),(200,2)]`. -/
theorem storage_info_runs_minimal (w : Nat) (malloc_ok : Bool) (realloc_ok : Nat → Bool)
    (ext2_getblk : Nat → Bool → error_t × Nat) (st_blocks ls k : Nat)
    (hn : 2 * ((st_blocks >>> ls) * 2 ^ k) < 2 ^ w)
    (hb : ∀ i, i < st_blocks >>> ls → (ext2_getblk i false).1 = 0 →
      2 * (((ext2_getblk i false).2 + 1) * 2 ^ k) < 2 ^ w) :
    (∀ r ∈ (diskfs_S_file_get_storage_info w malloc_ok realloc_ok ext2_getblk st_blocks ls k).2,
      0 < r.length) ∧
    List.Chain' (fun a b => ¬ (a.start = -1 ∧ b.start = -1) ∧
        (a.start ≠ -1 → b.start ≠ -1 → b.start ≠ a.start + a.length))
      (diskfs_S_file_get_storage_info w malloc_ok realloc_ok ext2_getblk st_blocks ls k).2 ∧
    diskfs_S_file_get_storage_info 32 true (fun _ => true) scenarioC_getblk 6 0 0
      = (0, [⟨100, 3⟩, ⟨-1, 1⟩, ⟨200, 2⟩]) := by
  have hinv : runs_inv
      (diskfs_S_file_get_storage_info w malloc_ok realloc_ok ext2_getblk st_blocks ls k).2 := by
    cases malloc_ok
    · exact runs_inv_nil
    · have hsim := walk_loop_eq_exact w ext2_getblk realloc_ok k (st_blocks >>> ls) hn hb
        (st_blocks >>> ls) { err := 0, index := 0, runs := [], runs_alloced := 10 }
        runs_inv_nil (walk_fits_initial w k) (by simp)
      simp only [diskfs_S_file_get_storage_info, if_true, block_count_fits w k _ hn, hsim]
      exact exact_walk_loop_inv ext2_getblk realloc_ok k _ _ runs_inv_nil
  refine ⟨fun r hr => (hinv.1 r hr).2, ?_, by decide⟩
  refine List.Chain'.imp ?_ hinv.2
  intro a b hab
  exact ⟨fun h => hab (Or.inl h), fun h1 h2 h3 => hab (Or.inr ⟨h1, h2, h3⟩)⟩

/-- Witness of C2 (amended) on the block map of Scenario C, with 32-bit words. -/
theorem storage_info_runs_minimal_witness :
    (∀ r ∈ (diskfs_S_file_get_storage_info 32 true (fun _ => true) scenarioC_getblk 6 0 0).2,
      0 < r.length) ∧
    List.Chain' (fun a b => ¬ (a.start = -1 ∧ b.start = -1) ∧
        (a.start ≠ -1 → b.start ≠ -1 → b.start ≠ a.start + a.length))
      (diskfs_S_file_get_storage_info 32 true (fun _ => true) scenarioC_getblk 6 0 0).2 ∧
    diskfs_S_file_get_storage_info 32 true (fun _ => true) scenarioC_getblk 6 0 0
      = (0, [⟨100, 3⟩, ⟨-1, 1⟩, ⟨200, 2⟩]) :=
  storage_info_runs_minimal 32 true (fun _ => true) scenarioC_getblk 6 0 0 (by decide)
    (by decide)

/-- C2 as stated fails, with 32-bit words: the blocks `2^31` and `2^31 + 1` are
next to each other and both lookups succeed, but the first start is stored as the
negative number `-2^31`, the test `run->start >= 0` fails and a second run is
added.  The list is `[(-2^31, 1), (-2^31 + 1, 1)]`: two consecutive address runs,
the second of which starts where the first ends. -/
theorem storage_info_runs_minimal_counterexample :
    (∀ i, i < 2 >>> 0 → (top_half_getblk i false).1 = 0) ∧
    diskfs_S_file_get_storage_info 32 true (fun _ => true) top_half_getblk 2 0 0
      = (0, [⟨-2147483648, 1⟩, ⟨-2147483647, 1⟩]) ∧
    (-2147483648 : Int) ≠ -1 ∧ (-2147483647 : Int) ≠ -1 ∧
    (-2147483647 : Int) = -2147483648 + 1 ∧
    ¬ List.Chain' (fun a b => ¬ (a.start = -1 ∧ b.start = -1) ∧
        (a.start ≠ -1 → b.start ≠ -1 → b.start ≠ a.start + a.length))
      (diskfs_S_file_get_storage_info 32 true (fun _ => true) top_half_getblk 2 0 0).2 := by
  have hres : diskfs_S_file_get_storage_info 32 true (fun _ => true) top_half_getblk 2 0 0
      = (0, [⟨-2147483648, 1⟩, ⟨-2147483647, 1⟩]) := by decide
  refine ⟨by decide, hres, by decide, by decide, by decide, ?_⟩
  rw [hres]
  intro hchain
  have h := (List.chain'_cons.1 hchain).1
  exact h.2 (by decide) (by decide) (by decide)

/-! ## Proofs for the page-fault handlers -/

theorem reader_unlock_lock (l : rwlock) : rwlock_reader_unlock (rwlock_reader_lock l) = l := by
  cases l
  simp [rwlock_reader_unlock, rwlock_reader_lock]

theorem find_address_range (env : pager_env) (pager : pager_obj) (offset : Nat)
    (w : pager_world) (hfile : pager.type = .FILE_DATA) (hoff : pager.allocsize ≤ offset) :
    find_address env pager offset w
      = { err := EIO, addr := 0, disksize := 0, nplock := true, world := w } := by
  simp only [find_address, hfile, ge_iff_le, hoff, if_true, reader_unlock_lock]

theorem find_address_file (env : pager_env) (pager : pager_obj) (offset : Nat)
    (w : pager_world) (hfile : pager.type = .FILE_DATA) (hoff : offset < pager.allocsize) :
    find_address env pager offset w
      = { err := (env.ext2_getblk (offset / env.block_size) false).1,
          addr := (env.ext2_getblk (offset / env.block_size) false).2,
          disksize := if offset + env.vm_page_size > pager.allocsize
            then pager.allocsize - offset else env.vm_page_size,
          nplock := true,
          world := { allocptrlock := rwlock_reader_lock w.allocptrlock,
                     events := w.events ++ [.getblk (offset / env.block_size) false] } } := by
  simp only [find_address, hfile, ge_iff_le, Nat.not_le.2 hoff, if_false]

/-- C5: range error.  For a file pager and an offset at or beyond `allocsize`,
`pager_read_page` and `pager_write_page` return `EIO`, store no buffer and no
write-lock flag, and leave the state as on entry: no call of the block lookup, no
device read or write, and the allocation lock released. -/
theorem read_write_range_error (env : pager_env) (pager : pager_obj) (offset : Nat)
    (buf : List Nat) (w : pager_world)
    (hfile : pager.type = .FILE_DATA) (hoff : pager.allocsize ≤ offset) :
    pager_read_page env pager offset w
        = { err := EIO, buf := none, writelock := none, world := w } ∧
      pager_write_page env pager offset buf w = ( EIO, w) := by
  have h0 : EIO ≠ 0 := by decide
  constructor
  · simp only [pager_read_page, find_address_range env pager offset w hfile hoff, ne_eq, h0,
      not_false_eq_true, if_true]
  · simp only [pager_write_page, find_address_range env pager offset w hfile hoff, ne_eq, h0,
      not_false_eq_true, if_true]

/-- Witness of C5: offset 8192 of the Scenario A pager. -/
theorem read_write_range_error_witness :
    pager_read_page (scenarioA_env [] []) scenarioA_pager 8192 idle_world
        = { err := EIO, buf := none, writelock := none, world := idle_world } ∧
      pager_write_page (scenarioA_env [] []) scenarioA_pager 8192 [] idle_world
        = ( EIO, idle_world) :=
  read_write_range_error (scenarioA_env [] []) scenarioA_pager 8192 [] idle_world rfl
    (by decide)

/-- C6: the final page of a file.  For a file pager and an offset below
`allocsize` whose lookup gives a physical block `addr` and whose device read of
`v` bytes succeeds with the page `region`, `pager_read_page` succeeds and stores
a page-sized buffer made of the first `v` bytes of `region` followed by
`vm_page_size - v` zero bytes, where `v = allocsize - offset` when
`offset + vm_page_size > allocsize` and `v = vm_page_size` otherwise; and
`1 ≤ v ≤ vm_page_size`. -/
theorem read_page_valid_bytes (env : pager_env) (pager : pager_obj) (offset addr : Nat)
    (region : List Nat) (w : pager_world)
    (hpage : 0 < env.vm_page_size)
    (hfile : pager.type = .FILE_DATA) (hoff : offset < pager.allocsize)
    (hblk : env.ext2_getblk (offset / env.block_size) false = (0, addr)) (haddr : addr ≠ 0)
    (hread : env.dev_read_sync addr
      (if offset + env.vm_page_size > pager.allocsize then pager.allocsize - offset
        else env.vm_page_size) = (0, region))
    (hlen : region.length = env.vm_page_size) :
    1 ≤ (if offset + env.vm_page_size > pager.allocsize then pager.allocsize - offset
        else env.vm_page_size) ∧
    (if offset + env.vm_page_size > pager.allocsize then pager.allocsize - offset
        else env.vm_page_size) ≤ env.vm_page_size ∧
    (pager_read_page env pager offset w).err = 0 ∧
    (pager_read_page env pager offset w).buf
      = some (region.take (if offset + env.vm_page_size > pager.allocsize
            then pager.allocsize - offset else env.vm_page_size)
          ++ List.replicate (env.vm_page_size -
            (if offset + env.vm_page_size > pager.allocsize then pager.allocsize - offset
              else env.vm_page_size)) 0) ∧
    ((pager_read_page env pager offset w).buf.map List.length) = some env.vm_page_size := by
  have hv1 : 1 ≤ (if offset + env.vm_page_size > pager.allocsize then pager.allocsize - offset
      else env.vm_page_size) := by
    split_ifs <;> omega
  have hv2 : (if offset + env.vm_page_size > pager.allocsize then pager.allocsize - offset
      else env.vm_page_size) ≤ env.vm_page_size := by
    split_ifs <;> omega
  generalize hv : (if offset + env.vm_page_size > pager.allocsize then pager.allocsize - offset
      else env.vm_page_size) = v at hread hv1 hv2 ⊢
  have hbuf : (if v ≠ env.vm_page_size then bzero region v (env.vm_page_size - v) else region)
      = region.take v ++ List.replicate (env.vm_page_size - v) 0 := by
    by_cases hne : v = env.vm_page_size
    · rw [if_neg (not_not.2 hne), hne, Nat.sub_self, List.replicate_zero, List.append_nil,
        ← hlen, List.take_length]
    · have hdrop : region.drop (v + (env.vm_page_size - v)) = [] := by
        apply List.drop_eq_nil_of_le
        omega
      simp [hne, bzero, hdrop]
  have hres : pager_read_page env pager offset w
      = { err := 0,
          buf := some (region.take v ++ List.replicate (env.vm_page_size - v) 0),
          writelock := some 0,
          world := { allocptrlock := w.allocptrlock,
                     events := w.events ++ [.getblk (offset / env.block_size) false]
                       ++ [.dev_read addr v] } } := by
    simp only [pager_read_page, find_address_file env pager offset w hfile hoff, hblk, hv,
      ne_eq, not_true_eq_false, if_false, haddr, not_false_eq_true, if_true, hread,
      true_and, hbuf, reader_unlock_lock]
  refine ⟨hv1, hv2, ?_, ?_, ?_⟩
  · rw [hres]
  · rw [hres]
  · rw [hres]
    simp only [Option.map_some', List.length_append, List.length_take, List.length_replicate,
      hlen]
    congr 1
    omega

/-- Witness of C6, Scenario A: with `allocsize` one page and a half, reading page
`0` gives the whole block, and reading the page at `vm_page_size` gives 2048 bytes
of device data followed by 2048 zero bytes. -/
theorem read_page_scenarioA :
    (pager_read_page (scenarioA_env scenarioA_block0 scenarioA_block1) scenarioA_pager 0
        idle_world).buf
      = some (scenarioA_block0.take 4096 ++ List.replicate (4096 - 4096) 0) ∧
    (pager_read_page (scenarioA_env scenarioA_block0 scenarioA_block1) scenarioA_pager 4096
        idle_world).buf
      = some (scenarioA_block1.take 2048 ++ List.replicate (4096 - 2048) 0) :=
  ⟨(read_page_valid_bytes (scenarioA_env scenarioA_block0 scenarioA_block1) scenarioA_pager
      0 10 scenarioA_block0 idle_world (by decide) rfl (by decide) (by decide) (by decide)
      (by simp [scenarioA_env]) (List.length_replicate _ _)).2.2.2.1,
   (read_page_valid_bytes (scenarioA_env scenarioA_block0 scenarioA_block1) scenarioA_pager
      4096 11 scenarioA_block1 idle_world (by decide) rfl (by decide) (by decide) (by decide)
      (by simp [scenarioA_env]) (List.length_replicate _ _)).2.2.2.1⟩

/-- C7: holes read as zero and are write-locked.  For every pager (device or
file) and offset for which `find_address` succeeds: when the resolved address is
`0`, `pager_read_page` succeeds, stores a page of `vm_page_size` zero bytes and
the write-lock flag `1`, and the only call it makes after the resolver is
`vm_allocate`, so no device read; when the resolved address is not `0` it stores
the write-lock flag `0`; hence the flag is `1` exactly when the address is `0`. -/
theorem read_page_hole (env : pager_env) (pager : pager_obj) (offset : Nat) (w : pager_world)
    (hres : (find_address env pager offset w).err = 0) :
    ((find_address env pager offset w).addr = 0 →
      (pager_read_page env pager offset w).err = 0 ∧
      (pager_read_page env pager offset w).buf = some (List.replicate env.vm_page_size 0) ∧
      (pager_read_page env pager offset w).writelock = some 1 ∧
      (pager_read_page env pager offset w).world.events
        = (find_address env pager offset w).world.events ++ [.vm_allocate env.vm_page_size] ∧
      (∀ a n, io_event.dev_read a n ∈ (pager_read_page env pager offset w).world.events →
        io_event.dev_read a n ∈ w.events)) ∧
    ((find_address env pager offset w).addr ≠ 0 →
      (pager_read_page env pager offset w).writelock = some 0) ∧
    ((pager_read_page env pager offset w).writelock = some 1 ↔
      (find_address env pager offset w).addr = 0) := by
  have hev : ∀ a n, io_event.dev_read a n ∈ (find_address env pager offset w).world.events →
      io_event.dev_read a n ∈ w.events := by
    intro a n h
    unfold find_address at h
    cases hty : pager.type
    · simpa [hty] using h
    · simp only [hty] at h
      by_cases hoff : offset ≥ pager.allocsize
      · simpa [hoff] using h
      · simpa [hoff] using h
  have hzero : (find_address env pager offset w).addr = 0 →
      (pager_read_page env pager offset w).err = 0 ∧
      (pager_read_page env pager offset w).buf = some (List.replicate env.vm_page_size 0) ∧
      (pager_read_page env pager offset w).writelock = some 1 ∧
      (pager_read_page env pager offset w).world.events
        = (find_address env pager offset w).world.events ++ [.vm_allocate env.vm_page_size] := by
    intro h0
    unfold pager_read_page
    simp only [hres, h0, ne_eq, not_true_eq_false, if_false, vm_allocate]
    cases (find_address env pager offset w).nplock <;> simp
  have hnz : (find_address env pager offset w).addr ≠ 0 →
      (pager_read_page env pager offset w).writelock = some 0 := by
    intro h0
    unfold pager_read_page
    simp only [hres, ne_eq, not_true_eq_false, if_false, h0, not_false_eq_true, if_true]
    cases (find_address env pager offset w).nplock <;> simp
  refine ⟨?_, hnz, ?_⟩
  · intro h0
    obtain ⟨h1, h2, h3, h4⟩ := hzero h0
    refine ⟨h1, h2, h3, h4, ?_⟩
    intro a n hmem
    rw [h4] at hmem
    rcases List.mem_append.1 hmem with h | h
    · exact hev a n h
    · simp at h
  · constructor
    · intro h1
      by_contra hne
      rw [hnz hne] at h1
      simp at h1
    · intro h0
      exact (hzero h0).2.2.1

/-- Witness of C7: page `0` of a two-page file all of whose blocks are holes. -/
theorem read_page_hole_witness :
    (pager_read_page hole_env { type := .FILE_DATA, allocsize := 8192 } 0 idle_world).writelock
        = some 1 ↔
      (find_address hole_env { type := .FILE_DATA, allocsize := 8192 } 0 idle_world).addr = 0 :=
  (read_page_hole hole_env { type := .FILE_DATA, allocsize := 8192 } 0 idle_world
    (by decide)).2.2

/-- C3, the code at the failing input: with 4096-byte pages and blocks and
`allocsize = 8192`, the page at address 4096 is the last allocated block (the
block holding byte `allocsize - 1`), and `pager_unlock_page` does not return
`EIO`: it returns `0` after calling the lookup-or-allocate for block `1`. -/
theorem unlock_page_last_block_not_rejected :
    (two_block_pager.allocsize - 1) / failing_lookup_env.block_size = 1 ∧
    1 * failing_lookup_env.block_size < 4096 + failing_lookup_env.vm_page_size ∧
    4096 < (1 + 1) * failing_lookup_env.block_size ∧
    pager_unlock_page failing_lookup_env two_block_pager 4096 idle_world
      = (0, { allocptrlock := { readers := 0, writers := 0 },
              events := [.catch_exception, .getblk 1 true, .end_catch_exception] }) := by
  decide

/-- C4, the code at the failing input: for a file pager and an offset inside
the file whose block lookup fails (here with `EINVAL`), `pager_read_page` and
`pager_write_page` return the error of the lookup and leave the reader hold taken
by `find_address` on the allocation lock in place: the lock has one reader hold
on return and none on entry. -/
theorem read_write_page_lock_leak :
    pager_read_page failing_lookup_env two_block_pager 0 idle_world
      = { err := EINVAL, buf := none, writelock := none,
          world := { allocptrlock := { readers := 1, writers := 0 },
                     events := [.getblk 0 false] } } ∧
    pager_write_page failing_lookup_env two_block_pager 0 [] idle_world
      = (EINVAL, { allocptrlock := { readers := 1, writers := 0 },
                   events := [.getblk 0 false] }) ∧
    idle_world.allocptrlock = { readers := 0, writers := 0 } := by
  decide

/-! ## Proofs for the Registry list -/

theorem is_registry_congr (mem mem2 : Nat → Option user_pager_info) (l : List Nat) :
    ∀ (c : ptr_cell) (p : Option Nat), (∀ u ∈ l, mem2 u = mem u) →
      is_registry mem c p l → is_registry mem2 c p l := by
  induction l with
  | nil => intro c p _ h; exact h
  | cons u l ih =>
    intro c p hagree h
    obtain ⟨hp, o, ho, hty, hprev, hrest⟩ := h
    refine ⟨hp, o, ?_, hty, hprev, ?_⟩
    · rw [hagree u (List.mem_cons_self _ _)]; exact ho
    · exact ih _ _ (fun x hx => hagree x (List.mem_cons_of_mem _ hx)) hrest

theorem is_registry_mem (mem : Nat → Option user_pager_info) (l : List Nat) :
    ∀ (c : ptr_cell) (p : Option Nat), is_registry mem c p l →
      ∀ u ∈ l, ∃ o, mem u = some o ∧ o.type = .FILE_DATA := by
  induction l with
  | nil => intro c p _ u hu; simp at hu
  | cons v l ih =>
    intro c p h u hu
    obtain ⟨_, o, ho, hty, _, hrest⟩ := h
    rcases List.mem_cons.1 hu with rfl | hu
    · exact ⟨o, ho, hty⟩
    · exact ih _ _ hrest u hu

/-- The list that a chain visits is determined by the memory and the start. -/
theorem is_registry_unique (mem : Nat → Option user_pager_info) (l : List Nat) :
    ∀ (l2 : List Nat) (c : ptr_cell) (p : Option Nat),
      is_registry mem c p l → is_registry mem c p l2 → l = l2 := by
  induction l with
  | nil =>
    intro l2 c p h h2
    cases l2 with
    | nil => rfl
    | cons v l2 =>
      have h1 : p = none := h
      obtain ⟨hp, _⟩ := h2
      rw [h1] at hp
      cases hp
  | cons u l ih =>
    intro l2 c p h h2
    obtain ⟨hp, o, ho, _, _, hrest⟩ := h
    cases l2 with
    | nil =>
      have h1 : p = none := h2
      rw [h1] at hp
      cases hp
    | cons v l2 =>
      obtain ⟨hp2, o2, ho2, _, _, hrest2⟩ := h2
      rw [hp] at hp2
      cases hp2
      rw [ho] at ho2
      cases ho2
      rw [ih l2 _ _ hrest hrest2]

/-- Where the pager `u` sits in a chain: its `prevp` is the start cell when it is
first and the `next` cell of a pager before it otherwise, and the chain goes on
from its `next` pointer. -/
theorem is_registry_split (mem : Nat → Option user_pager_info) (u : Nat) (l2 : List Nat)
    (l1 : List Nat) :
    ∀ (c : ptr_cell) (p : Option Nat), is_registry mem c p (l1 ++ u :: l2) →
      ∃ o, mem u = some o ∧ o.type = .FILE_DATA ∧
        ((l1 = [] ∧ o.prevp = c) ∨ (∃ w ∈ l1, o.prevp = .next_of w)) ∧
        is_registry mem (.next_of u) o.next l2 := by
  induction l1 with
  | nil =>
    intro c p h
    obtain ⟨_, o, ho, hty, hprev, hrest⟩ := h
    exact ⟨o, ho, hty, Or.inl ⟨rfl, hprev⟩, hrest⟩
  | cons v l1 ih =>
    intro c p h
    obtain ⟨_, ov, _, _, _, hrest⟩ := h
    obtain ⟨o, ho, hty, hpos, hr⟩ := ih _ _ hrest
    refine ⟨o, ho, hty, Or.inr ?_, hr⟩
    rcases hpos with ⟨hnil, hprev⟩ | ⟨w, hw, hprev⟩
    · exact ⟨v, List.mem_cons_self _ _, hprev⟩
    · exact ⟨w, List.mem_cons_of_mem _ hw, hprev⟩

theorem is_registry_next_mem (mem : Nat → Option user_pager_info) (c : ptr_cell)
    (p : Option Nat) (l : List Nat) (h : is_registry mem c p l) :
    ∀ x, p = some x → x ∈ l := by
  intro x hx
  cases l with
  | nil =>
    have h1 : p = none := h
    rw [h1] at hx
    cases hx
  | cons v l =>
    obtain ⟨hp, _⟩ := h
    rw [hp] at hx
    cases hx
    exact List.mem_cons_self _ _

/-- Unlinking the pager `u` from a chain.  `M` is any memory that agrees with
`mem` except that the pager after `u` has its `prevp` set to that of `u`, and the
pager before `u` has its `next` set to that of `u`. -/
theorem is_registry_unlink (mem M : Nat → Option user_pager_info) (u : Nat)
    (o : user_pager_info) (l2 : List Nat) (hu : mem u = some o)
    (hframe : ∀ x, x ≠ u → o.next ≠ some x → o.prevp ≠ .next_of x → M x = mem x)
    (hnext : ∀ n, o.next = some n → n ≠ u → o.prevp ≠ .next_of n →
      ∀ o_n, mem n = some o_n → M n = some { o_n with prevp := o.prevp })
    (hprev : ∀ v, o.prevp = .next_of v → v ≠ u → o.next ≠ some v →
      ∀ ov, mem v = some ov → M v = some { ov with next := o.next })
    (l1 : List Nat) :
    ∀ (c : ptr_cell) (p : Option Nat), is_registry mem c p (l1 ++ u :: l2) →
      (l1 ++ u :: l2).Nodup → (∀ w, c = .next_of w → w ∉ l1 ++ u :: l2) →
      is_registry M c (if l1 = [] then o.next else p) (l1 ++ l2) := by
  induction l1 with
  | nil =>
    intro c p h hnd hown
    simp only [List.nil_append] at h hnd hown ⊢
    obtain ⟨_, o2, ho2, _, hpc, hrest⟩ := h
    rw [hu] at ho2
    cases ho2
    simp only [if_true]
    have hul2 : u ∉ l2 := (List.nodup_cons.1 hnd).1
    have hnd2 : l2.Nodup := (List.nodup_cons.1 hnd).2
    cases l2 with
    | nil => exact hrest
    | cons n l2 =>
      obtain ⟨hn, o_n, ho_n, hty, _, hrest2⟩ := hrest
      have hnu : n ≠ u := fun e => hul2 (e ▸ List.mem_cons_self _ _)
      have hcn : o.prevp ≠ .next_of n := by
        intro e
        exact hown n (hpc ▸ e) (List.mem_cons_of_mem _ (List.mem_cons_self _ _))
      refine ⟨hn, _, hnext n hn hnu hcn o_n ho_n, hty, hpc, ?_⟩
      apply is_registry_congr mem M l2 _ _ _ hrest2
      intro x hx
      apply hframe
      · intro e; exact hul2 (e ▸ List.mem_cons_of_mem _ hx)
      · rw [hn]
        intro e
        cases e
        exact (List.nodup_cons.1 hnd2).1 hx
      · intro e
        exact hown x (hpc ▸ e) (List.mem_cons_of_mem _ (List.mem_cons_of_mem _ hx))
  | cons v l1 ih =>
    intro c p h hnd hown
    simp only [List.cons_append] at h hnd hown ⊢
    have hvn : v ∉ l1 ++ u :: l2 := (List.nodup_cons.1 hnd).1
    have hnd2 : (l1 ++ u :: l2).Nodup := (List.nodup_cons.1 hnd).2
    have hvu : v ≠ u := fun e => hvn (e ▸ List.mem_append_right _ (List.mem_cons_self _ _))
    obtain ⟨hp, ov, hov, hty, hpc, hrest⟩ := h
    have hih := ih (.next_of v) ov.next hrest hnd2 (by
      intro w hw
      cases hw
      exact hvn)
    obtain ⟨o2, ho2, _, hpos, hr⟩ := is_registry_split mem u l2 l1 _ _ hrest
    rw [hu] at ho2
    cases ho2
    have hnv : o.next ≠ some v := by
      intro e
      exact hvn (List.mem_append_right _
        (List.mem_cons_of_mem _ (is_registry_next_mem mem _ _ _ hr v e)))
    simp only [reduceCtorEq, if_false]
    rcases hpos with ⟨hnil, hprevp⟩ | ⟨w, hw, hprevp⟩
    · subst hnil
      simp only [if_true] at hih
      exact ⟨hp, _, hprev v hprevp hvu hnv ov hov, hty, hpc, hih⟩
    · have hne : l1 ≠ [] := by
        intro e
        rw [e] at hw
        simp at hw
      simp only [hne, if_false] at hih
      have hpv : o.prevp ≠ .next_of v := by
        rw [hprevp]
        intro e
        cases e
        exact hvn (List.mem_append_left _ hw)
      refine ⟨hp, ov, ?_, hty, hpc, hih⟩
      rw [hframe v hvu hnv hpv]
      exact hov

theorem is_registry_nodup (mem : Nat → Option user_pager_info) (l : List Nat) :
    ∀ (c : ptr_cell) (p : Option Nat), is_registry mem c p l →
      (∀ w, c = .next_of w → w ∉ l) → l.Nodup := by
  induction l with
  | nil => intro c p _ _; exact List.nodup_nil
  | cons u l ih =>
    intro c p h hown
    obtain ⟨_, o, ho, _, hpc, hrest⟩ := h
    have hul : u ∉ l := by
      intro hmem
      obtain ⟨l1, l2, rfl⟩ := List.append_of_mem hmem
      obtain ⟨o2, ho2, _, hpos, _⟩ := is_registry_split mem u l2 l1 _ _ hrest
      rw [ho] at ho2
      cases ho2
      rcases hpos with ⟨_, hprev⟩ | ⟨w, hw, hprev⟩
      · exact hown u (hpc ▸ hprev) (List.mem_cons_self _ _)
      · exact hown w (hpc ▸ hprev)
          (List.mem_cons_of_mem _ (List.mem_append_left _ hw))
    refine List.nodup_cons.2 ⟨hul, ih _ _ hrest ?_⟩
    intro w hw
    cases hw
    exact hul

theorem registry_nodup (s : fs_state) (l : List Nat) (h : registry s l) : l.Nodup :=
  is_registry_nodup s.mem l _ _ h (by intro w hw; cases hw)

theorem store_cell_some (head : Option Nat) (mem : Nat → Option user_pager_info)
    (c : ptr_cell) (val : Option Nat) (hc : ∀ v, c = .next_of v → ∃ ov, mem v = some ov) :
    ∃ mem1, store_cell head mem c val
        = some (if c = .filepagerlist then val else head, mem1) ∧
      (∀ x, c ≠ .next_of x → mem1 x = mem x) ∧
      (∀ v ov, c = .next_of v → mem v = some ov → mem1 v = some { ov with next := val }) := by
  cases c with
  | filepagerlist =>
    refine ⟨mem, by simp [store_cell], fun _ _ => rfl, ?_⟩
    intro v ov hv
    cases hv
  | next_of w =>
    obtain ⟨ow, how⟩ := hc w rfl
    refine ⟨Function.update mem w (some { ow with next := val }), by simp [store_cell, how],
      ?_, ?_⟩
    · intro x hx
      have : x ≠ w := fun e => hx (by rw [e])
      simp [Function.update, this]
    · intro v ov hv hov
      cases hv
      rw [how] at hov
      cases hov
      simp [Function.update]

theorem store_prevp_some (mem : Nat → Option user_pager_info) (t : Option Nat) (c : ptr_cell)
    (ht : ∀ n, t = some n → ∃ o, mem n = some o) :
    ∃ mem2, store_prevp mem t c = some mem2 ∧
      (∀ x, t ≠ some x → mem2 x = mem x) ∧
      (∀ n o, t = some n → mem n = some o → mem2 n = some { o with prevp := c }) := by
  cases t with
  | none =>
    refine ⟨mem, by simp [store_prevp], fun _ _ => rfl, ?_⟩
    intro n o hn
    cases hn
  | some m =>
    obtain ⟨om, hom⟩ := ht m rfl
    refine ⟨Function.update mem m (some { om with prevp := c }), by simp [store_prevp, hom],
      ?_, ?_⟩
    · intro x hx
      have : x ≠ m := fun e => hx (by rw [e])
      simp [Function.update, this]
    · intro n o hn ho
      cases hn
      rw [hom] at ho
      cases ho
      simp [Function.update]

/-- Teardown of the pager `u` of the Registry list `l1 ++ u :: l2`. -/
theorem clear_user_data_inv (s : fs_state) (l1 l2 : List Nat) (u : Nat)
    (hinv : registry_inv s (l1 ++ u :: l2)) :
    ∃ o s1, s.mem u = some o ∧ s.fileinfo o.np = some u ∧
      pager_clear_user_data s u = some s1 ∧ registry_inv s1 (l1 ++ l2) ∧
      s1.fileinfo = Function.update s.fileinfo o.np none ∧
      s1.light_refs = Function.update s.light_refs o.np (s.light_refs o.np - 1) ∧
      s1.send_rights = s.send_rights := by
  have hchain : is_registry s.mem .filepagerlist s.filepagerlist (l1 ++ u :: l2) := hinv.chain
  have hnd := hinv.nodup
  have hmemu : u ∈ l1 ++ u :: l2 := List.mem_append_right _ (List.mem_cons_self _ _)
  obtain ⟨o, ho, hty, hpos, hr⟩ := is_registry_split s.mem u l2 l1 _ _ hchain
  have hall := is_registry_mem s.mem _ _ _ hchain
  have hu1 : u ∉ l1 := fun h => (List.nodup_append.1 hnd).2.2 h (List.mem_cons_self _ _)
  have hu2 : u ∉ l2 := (List.nodup_cons.1 (List.nodup_append.1 hnd).2.1).1
  have hl12 : ∀ x, x ∈ l1 → x ∈ l2 → False := fun x h1 h2 =>
    (List.nodup_append.1 hnd).2.2 h1 (List.mem_cons_of_mem _ h2)
  -- the store through `prevp`
  obtain ⟨mem1, hsc, hsc1, hsc2⟩ := store_cell_some s.filepagerlist s.mem o.prevp o.next (by
    intro v hv
    rcases hpos with ⟨_, hp⟩ | ⟨w, hw, hp⟩
    · rw [hp] at hv; cases hv
    · rw [hp] at hv
      have e : w = v := ptr_cell.next_of.inj hv
      obtain ⟨ow, how, _⟩ := hall w (List.mem_append_left _ hw)
      exact ⟨ow, e ▸ how⟩)
  have hnext_mem : ∀ n, o.next = some n → n ∈ l2 := is_registry_next_mem s.mem _ _ _ hr
  have hprev_mem : ∀ v, o.prevp = .next_of v → v ∈ l1 := by
    intro v hv
    rcases hpos with ⟨_, hp⟩ | ⟨w, hw, hp⟩
    · rw [hp] at hv; cases hv
    · rw [hp] at hv
      exact (ptr_cell.next_of.inj hv) ▸ hw
  have hmem1_next : ∀ n, o.next = some n → mem1 n = s.mem n := by
    intro n hn
    apply hsc1
    intro e
    exact hl12 n (hprev_mem n e) (hnext_mem n hn)
  -- the store to the `prevp` of the next pager
  obtain ⟨mem2, hsp, hsp1, hsp2⟩ := store_prevp_some mem1 o.next o.prevp (by
    intro n hn
    obtain ⟨o_n, ho_n, _⟩ := hall n (List.mem_append_right _
      (List.mem_cons_of_mem _ (hnext_mem n hn)))
    exact ⟨o_n, by rw [hmem1_next n hn]; exact ho_n⟩)
  have hres : pager_clear_user_data s u = some
      { s with
        fileinfo := Function.update s.fileinfo o.np none
        light_refs := Function.update s.light_refs o.np (s.light_refs o.np - 1)
        filepagerlist := if o.prevp = .filepagerlist then o.next else s.filepagerlist
        mem := Function.update mem2 u none } := by
    simp [pager_clear_user_data, ho, hty, hsc, hsp, diskfs_nrele_light]
  have hMne : ∀ x, x ≠ u → Function.update mem2 u none x = mem2 x := by
    intro x hx
    simp [Function.update, hx]
  -- every other pager keeps its node
  have hnp : ∀ x ox, x ≠ u → s.mem x = some ox →
      ∃ ox2, Function.update mem2 u none x = some ox2 ∧ ox2.np = ox.np := by
    intro x ox hx hox
    rw [hMne x hx]
    have h1 : ∃ ox1, mem1 x = some ox1 ∧ ox1.np = ox.np := by
      by_cases hc : o.prevp = .next_of x
      · exact ⟨_, hsc2 x ox hc hox, rfl⟩
      · exact ⟨ox, by rw [hsc1 x hc]; exact hox, rfl⟩
    obtain ⟨ox1, hox1, hnp1⟩ := h1
    by_cases hn : o.next = some x
    · exact ⟨_, hsp2 x ox1 hn hox1, hnp1⟩
    · exact ⟨ox1, by rw [hsp1 x hn]; exact hox1, hnp1⟩
  have hfu : s.fileinfo o.np = some u := by
    obtain ⟨o2, ho2, hf⟩ := hinv.list_live u hmemu
    rw [ho] at ho2
    cases ho2
    exact hf
  refine ⟨o, _, ho, hfu, hres, ?_, rfl, rfl, rfl⟩
  refine ⟨?_, ?_, ?_, ?_⟩
  · -- the chain
    have hstart : (if o.prevp = ptr_cell.filepagerlist then o.next else s.filepagerlist)
        = (if l1 = [] then o.next else s.filepagerlist) := by
      rcases hpos with ⟨hnil, hp⟩ | ⟨w, hw, hp⟩
      · simp [hnil, hp]
      · have hne : l1 ≠ [] := by
          intro e
          rw [e] at hw
          simp at hw
        simp [hne, hp]
    show is_registry _ _ _ _
    simp only [hstart]
    apply is_registry_unlink s.mem _ u o l2 ho _ _ _ l1 _ _ hchain hnd
    · intro w hw; cases hw
    · intro x hx hn hp
      rw [hMne x hx, hsp1 x hn, hsc1 x hp]
    · intro n hn hnu hp o_n ho_n
      rw [hMne n hnu]
      apply hsp2 n o_n hn
      rw [hsc1 n hp]
      exact ho_n
    · intro v hv hvu hn ov hov
      rw [hMne v hvu, hsp1 v hn]
      exact hsc2 v ov hv hov
  · -- no repetition
    have := List.nodup_append.1 hnd
    refine List.nodup_append.2 ⟨this.1, (List.nodup_cons.1 this.2.1).2, ?_⟩
    intro x h1 h2
    exact hl12 x h1 h2
  · -- every pager of the list is pointed to by its node
    intro x hx
    have hxu : x ≠ u := by
      intro e
      rcases List.mem_append.1 hx with h | h
      · exact hu1 (e ▸ h)
      · exact hu2 (e ▸ h)
    have hxl : x ∈ l1 ++ u :: l2 := by
      rcases List.mem_append.1 hx with h | h
      · exact List.mem_append_left _ h
      · exact List.mem_append_right _ (List.mem_cons_of_mem _ h)
    obtain ⟨ox, hox, hfx⟩ := hinv.list_live x hxl
    obtain ⟨ox2, hox2, hnp2⟩ := hnp x ox hxu hox
    refine ⟨ox2, hox2, ?_⟩
    have hne : ox.np ≠ o.np := by
      intro e
      rw [e, hfu] at hfx
      cases hfx
      exact hxu rfl
    show Function.update s.fileinfo o.np none ox2.np = some x
    rw [hnp2]
    simp [Function.update, hne, hfx]
  · -- every node pointer refers to a pager of the list
    intro n x hf
    have hf0 : Function.update s.fileinfo o.np none n = some x := hf
    have hn : n ≠ o.np := by
      intro e
      rw [e] at hf0
      simp [Function.update] at hf0
    have hf1 : s.fileinfo n = some x := by
      simpa [Function.update, hn] using hf0
    obtain ⟨hxl, ox, hox, hnpx⟩ := hinv.live_list n x hf1
    have hxu : x ≠ u := by
      intro e
      rw [e, ho] at hox
      cases hox
      exact hn hnpx.symm
    refine ⟨?_, ?_⟩
    · rcases List.mem_append.1 hxl with h | h
      · exact List.mem_append_left _ h
      · rcases List.mem_cons.1 h with h | h
        · exact absurd h hxu
        · exact List.mem_append_right _ h
    · obtain ⟨ox2, hox2, hnp2⟩ := hnp x ox hxu hox
      exact ⟨ox2, hox2, by rw [hnp2]; exact hnpx⟩

theorem registry_inv_of_eq (s s2 : fs_state) (l : List Nat) (h : registry_inv s l)
    (hm : s2.mem = s.mem) (hh : s2.filepagerlist = s.filepagerlist)
    (hf : s2.fileinfo = s.fileinfo) : registry_inv s2 l := by
  refine ⟨?_, h.nodup, ?_, ?_⟩
  · show is_registry _ _ _ _
    rw [hm, hh]
    exact h.chain
  · rw [hm, hf]; exact h.list_live
  · rw [hm, hf]; exact h.live_list

theorem registry_inv_initial : registry_inv initial_state [] := by
  refine ⟨rfl, List.nodup_nil, ?_, ?_⟩
  · intro u hu; simp at hu
  · intro n u h
    simp [initial_state] at h

/-- The call `diskfs_get_filemap` for a node that has a pager. -/
theorem get_filemap_existing (s : fs_state) (l : List Nat) (hinv : registry_inv s l)
    (np a h u : Nat) (hf : s.fileinfo np = some u) :
    ∃ o, s.mem u = some o ∧ o.np = np ∧
      diskfs_get_filemap s np a h
        = some ({ s with send_rights :=
            Function.update s.send_rights o.p (s.send_rights o.p + 1) }, o.p) := by
  obtain ⟨_, o, ho, hnp⟩ := hinv.live_list np u hf
  refine ⟨o, ho, hnp, ?_⟩
  simp [diskfs_get_filemap, hf, ho, pager_get_port, mach_port_insert_right]

/-- The call `diskfs_get_filemap` for a node that has no pager: the pager
allocated at `a` is put in front of the Registry list. -/
theorem get_filemap_create (s : fs_state) (l : List Nat) (hinv : registry_inv s l)
    (np a h : Nat) (hf : s.fileinfo np = none) (ha : s.mem a = none) :
    ∃ s1, diskfs_get_filemap s np a h = some (s1, h) ∧ registry_inv s1 (a :: l) ∧
      s1.fileinfo = Function.update s.fileinfo np (some a) ∧
      s1.light_refs = Function.update s.light_refs np (s.light_refs np + 1) ∧
      (∃ o, s1.mem a = some o ∧ o.p = h ∧ o.np = np) := by
  have hchain : is_registry s.mem .filepagerlist s.filepagerlist l := hinv.chain
  have hall := is_registry_mem s.mem _ _ _ hchain
  have hal : a ∉ l := by
    intro hmem
    obtain ⟨o, ho, _⟩ := hall a hmem
    rw [ha] at ho
    cases ho
  have hhead : ∀ n, s.filepagerlist = some n → n ∈ l := is_registry_next_mem s.mem _ _ _ hchain
  let o_new : user_pager_info :=
    { type := .FILE_DATA, np := np, p := h, next := s.filepagerlist, prevp := .filepagerlist }
  have hm0 : ∀ x, x ≠ a → Function.update s.mem a (some o_new) x = s.mem x := by
    intro x hx
    simp [Function.update, hx]
  have hm0a : Function.update s.mem a (some o_new) a = some o_new := by
    simp [Function.update]
  obtain ⟨mem2, hsp, hsp1, hsp2⟩ := store_prevp_some (Function.update s.mem a (some o_new))
    s.filepagerlist (.next_of a) (by
      intro n hn
      have hnl := hhead n hn
      obtain ⟨o_n, ho_n, _⟩ := hall n hnl
      have hna : n ≠ a := fun e => hal (e ▸ hnl)
      exact ⟨o_n, by rw [hm0 n hna]; exact ho_n⟩)
  have hhead_a : s.filepagerlist ≠ some a := fun e => hal (hhead a e)
  have hmem2a : mem2 a = some o_new := by
    rw [hsp1 a hhead_a]; exact hm0a
  have hres : diskfs_get_filemap s np a h = some
      ({ filepagerlist := some a, mem := mem2,
         fileinfo := Function.update s.fileinfo np (some a),
         light_refs := Function.update s.light_refs np (s.light_refs np + 1),
         send_rights := Function.update s.send_rights h (s.send_rights h + 1) }, h) := by
    simp [diskfs_get_filemap, hf, hsp, hmem2a, o_new, pager_get_port, mach_port_insert_right,
      diskfs_nref_light]
  have hnp : ∀ x ox, x ≠ a → s.mem x = some ox → ∃ ox2, mem2 x = some ox2 ∧ ox2.np = ox.np := by
    intro x ox hx hox
    have h0 : Function.update s.mem a (some o_new) x = some ox := by rw [hm0 x hx]; exact hox
    by_cases hn : s.filepagerlist = some x
    · exact ⟨_, hsp2 x ox hn h0, rfl⟩
    · exact ⟨ox, by rw [hsp1 x hn]; exact h0, rfl⟩
  refine ⟨_, hres, ?_, rfl, rfl, ⟨o_new, hmem2a, rfl, rfl⟩⟩
  refine ⟨?_, List.nodup_cons.2 ⟨hal, hinv.nodup⟩, ?_, ?_⟩
  · -- the chain
    show is_registry mem2 .filepagerlist (some a) (a :: l)
    refine ⟨rfl, o_new, hmem2a, rfl, rfl, ?_⟩
    show is_registry mem2 (.next_of a) s.filepagerlist l
    cases l with
    | nil => exact hchain
    | cons n l =>
      obtain ⟨hn, o_n, ho_n, hty, _, hrest⟩ := hchain
      have hna : n ≠ a := fun e => hal (e ▸ List.mem_cons_self _ _)
      have hnl : n ∉ l := (List.nodup_cons.1 hinv.nodup).1
      refine ⟨hn, _, hsp2 n o_n hn (by rw [hm0 n hna]; exact ho_n), hty, rfl, ?_⟩
      apply is_registry_congr s.mem mem2 l _ _ _ hrest
      intro x hx
      have hxa : x ≠ a := fun e => hal (e ▸ List.mem_cons_of_mem _ hx)
      have hxn : s.filepagerlist ≠ some x := by
        rw [hn]
        intro e
        cases e
        exact hnl hx
      rw [hsp1 x hxn, hm0 x hxa]
  · -- every pager of the list is pointed to by its node
    intro x hx
    rcases List.mem_cons.1 hx with rfl | hxl
    · exact ⟨o_new, hmem2a, by simp [Function.update, o_new]⟩
    · obtain ⟨ox, hox, hfx⟩ := hinv.list_live x hxl
      have hxa : x ≠ a := fun e => hal (e ▸ hxl)
      obtain ⟨ox2, hox2, hnp2⟩ := hnp x ox hxa hox
      refine ⟨ox2, hox2, ?_⟩
      have hne : ox.np ≠ np := by
        intro e
        rw [e, hf] at hfx
        cases hfx
      show Function.update s.fileinfo np (some a) ox2.np = some x
      rw [hnp2]
      simp [Function.update, hne, hfx]
  · -- every node pointer refers to a pager of the list
    intro n x hfn
    have hf0 : Function.update s.fileinfo np (some a) n = some x := hfn
    by_cases hn : n = np
    · subst hn
      have : x = a := by
        simp [Function.update] at hf0
        exact hf0.symm
      subst this
      exact ⟨List.mem_cons_self _ _, o_new, hmem2a, rfl⟩
    · have hf1 : s.fileinfo n = some x := by
        simpa [Function.update, hn] using hf0
      obtain ⟨hxl, ox, hox, hnpx⟩ := hinv.live_list n x hf1
      have hxa : x ≠ a := fun e => hal (e ▸ hxl)
      obtain ⟨ox2, hox2, hnp2⟩ := hnp x ox hxa hox
      exact ⟨List.mem_cons_of_mem _ hxl, ox2, hox2, by rw [hnp2]; exact hnpx⟩

/-- Every reachable state has a Registry list that satisfies the invariant. -/
theorem reachable_inv (s : fs_state) (h : reachable s) : ∃ l, registry_inv s l := by
  induction h with
  | init => exact ⟨[], registry_inv_initial⟩
  | get_filemap s s1 np a h r _ ha hcall ih =>
    obtain ⟨l, hinv⟩ := ih
    cases hf : s.fileinfo np with
    | none =>
      obtain ⟨s2, hres, hinv2, _⟩ := get_filemap_create s l hinv np a h hf ha
      rw [hres] at hcall
      cases hcall
      exact ⟨a :: l, hinv2⟩
    | some u =>
      obtain ⟨o, _, _, hres⟩ := get_filemap_existing s l hinv np a h u hf
      rw [hres] at hcall
      cases hcall
      exact ⟨l, registry_inv_of_eq s _ l hinv rfl rfl rfl⟩
  | clear_user_data s s1 n u _ hf hcall ih =>
    obtain ⟨l, hinv⟩ := ih
    obtain ⟨hul, _⟩ := hinv.live_list n u hf
    obtain ⟨l1, l2, rfl⟩ := List.append_of_mem hul
    obtain ⟨o, s2, _, _, hres, hinv2, _⟩ := clear_user_data_inv s l1 l2 u hinv
    rw [hres] at hcall
    cases hcall
    exact ⟨l1 ++ l2, hinv2⟩

theorem countP_eq_one_of_unique (l : List Nat) (P : Nat → Bool) (u : Nat) (hnd : l.Nodup)
    (hu : u ∈ l) (hP : ∀ v ∈ l, P v = true ↔ v = u) : l.countP P = 1 := by
  rw [← List.count_eq_one_of_mem hnd hu, List.count]
  apply List.countP_congr
  intro v hv
  rw [hP v hv]
  simp

theorem one_pager_call :
    diskfs_get_filemap initial_state 5 100 200 = some (one_pager_state, 200) := rfl

theorem one_pager_reachable : reachable one_pager_state :=
  reachable.get_filemap initial_state one_pager_state 5 100 200 200 reachable.init rfl
    one_pager_call

/-- C8: get-or-create is idempotent.  In a reachable state, two calls of
`diskfs_get_filemap` in succession for the node `np` both succeed and return the
same pager handle `r`, the handle of the pager `u` that the node points to after
the first call.  The second call leaves the node pointers, the Registry list, the
allocated pagers and the lightweight reference counts unchanged, so it creates no
pager.  The Registry list `l` after the calls has no repetition and exactly one of
its entries, `u`, is a pager of the node: the calls yield exactly one pager for
the node.  That pager is created by the first call (at the address `a` that
`malloc` returns, put in front of the list `l0`) when the node had none, and is
the pager the node already had otherwise. -/
theorem get_filemap_idempotent (s : fs_state) (hs : reachable s) (np a h a2 h2 : Nat)
    (ha : s.mem a = none) :
    ∃ s1 s2 r u o l l0,
      diskfs_get_filemap s np a h = some (s1, r) ∧
      diskfs_get_filemap s1 np a2 h2 = some (s2, r) ∧
      s1.fileinfo np = some u ∧ s1.mem u = some o ∧ o.p = r ∧ o.np = np ∧
      s2.fileinfo = s1.fileinfo ∧ s2.filepagerlist = s1.filepagerlist ∧
      s2.mem = s1.mem ∧ s2.light_refs = s1.light_refs ∧
      registry s l0 ∧ registry s1 l ∧ registry s2 l ∧
      l.Nodup ∧ u ∈ l ∧ l.countP (fun v => decide (node_of s1.mem v = some np)) = 1 ∧
      (s.fileinfo np = none → l = a :: l0) ∧ (s.fileinfo np ≠ none → l = l0) := by
  obtain ⟨l0, hinv⟩ := reachable_inv s hs
  have key : ∀ (s1 : fs_state) (l : List Nat) (u : Nat), registry_inv s1 l →
      s1.fileinfo np = some u →
      ∃ o, s1.mem u = some o ∧ o.np = np ∧
        diskfs_get_filemap s1 np a2 h2
          = some ({ s1 with send_rights :=
              Function.update s1.send_rights o.p (s1.send_rights o.p + 1) }, o.p) ∧
        u ∈ l ∧ l.countP (fun v => decide (node_of s1.mem v = some np)) = 1 := by
    intro s1 l u hinv1 hf1
    obtain ⟨o, ho, hnp, hres⟩ := get_filemap_existing s1 l hinv1 np a2 h2 u hf1
    have hul : u ∈ l := (hinv1.live_list np u hf1).1
    refine ⟨o, ho, hnp, hres, hul, ?_⟩
    apply countP_eq_one_of_unique l _ u hinv1.nodup hul
    intro v hv
    obtain ⟨ov, hov, hfv⟩ := hinv1.list_live v hv
    simp only [node_of, hov, Option.map_some', decide_eq_true_eq, Option.some.injEq]
    constructor
    · intro hnpv
      rw [hnpv, hf1] at hfv
      cases hfv
      rfl
    · intro e
      subst e
      rw [ho] at hov
      cases hov
      exact hnp
  cases hf : s.fileinfo np with
  | none =>
    obtain ⟨s1, hres, hinv1, hfi, _, o1, ho1, hp1, _⟩ :=
      get_filemap_create s l0 hinv np a h hf ha
    have hf1 : s1.fileinfo np = some a := by
      rw [hfi]; simp [Function.update]
    obtain ⟨o, ho, hnp, hres2, hul, huniq⟩ := key s1 (a :: l0) a hinv1 hf1
    have hop : o.p = h := by
      rw [ho1] at ho
      cases ho
      exact hp1
    rw [hop] at hres2
    exact ⟨s1, _, h, a, o, a :: l0, l0, hres, hres2, hf1, ho, hop, hnp, rfl, rfl, rfl, rfl,
      hinv.chain, hinv1.chain, hinv1.chain, hinv1.nodup, hul, huniq, fun _ => rfl,
      fun hne => absurd rfl hne⟩
  | some u =>
    obtain ⟨o, ho, hnp, hres⟩ := get_filemap_existing s l0 hinv np a h u hf
    have hinv1 : registry_inv
        { s with send_rights := Function.update s.send_rights o.p (s.send_rights o.p + 1) }
        l0 := registry_inv_of_eq s _ l0 hinv rfl rfl rfl
    obtain ⟨o2, ho2, _, hres2, hul, huniq⟩ := key _ l0 u hinv1 hf
    have ho2' : s.mem u = some o2 := ho2
    rw [ho] at ho2'
    cases ho2'
    exact ⟨_, _, o.p, u, o, l0, l0, hres, hres2, hf, ho, rfl, hnp, rfl, rfl, rfl, rfl,
      hinv.chain, hinv1.chain, hinv1.chain, hinv.nodup, hul, huniq,
      fun hn => Option.noConfusion hn, fun _ => rfl⟩

/-- Witness of C8: two calls for node `5` in the initial state. -/
theorem get_filemap_idempotent_witness :
    ∃ s1 s2 r u o l l0,
      diskfs_get_filemap initial_state 5 100 200 = some (s1, r) ∧
      diskfs_get_filemap s1 5 101 201 = some (s2, r) ∧
      s1.fileinfo 5 = some u ∧ s1.mem u = some o ∧ o.p = r ∧ o.np = 5 ∧
      s2.fileinfo = s1.fileinfo ∧ s2.filepagerlist = s1.filepagerlist ∧
      s2.mem = s1.mem ∧ s2.light_refs = s1.light_refs ∧
      registry initial_state l0 ∧ registry s1 l ∧ registry s2 l ∧
      l.Nodup ∧ u ∈ l ∧ l.countP (fun v => decide (node_of s1.mem v = some 5)) = 1 ∧
      (initial_state.fileinfo 5 = none → l = 100 :: l0) ∧
      (initial_state.fileinfo 5 ≠ none → l = l0) :=
  get_filemap_idempotent initial_state reachable.init 5 100 200 101 201 rfl

/-- C9: the Registry invariant.  Every reachable state has a Registry list `l`
(the chain from `filepagerlist`, with consistent `prevp` pointers) such that a
pager is in `l` exactly when some node points to it, `l` has no repetition, and
two pagers of `l` with the same node are the same pager.  For every pager `u` of
the list, `l = l1 ++ u :: l2`, `pager_clear_user_data` succeeds, the Registry list
becomes `l1 ++ l2`, the pointer of the node of `u` is cleared and no other node
pointer changes, and the lightweight reference count of that node drops by one
and no other count changes. -/
theorem registry_invariant (s : fs_state) (hs : reachable s) :
    ∃ l, registry s l ∧ l.Nodup ∧
      (∀ u, u ∈ l ↔ ∃ n, s.fileinfo n = some u) ∧
      (∀ u ∈ l, ∀ v ∈ l, ∀ ou ov, s.mem u = some ou → s.mem v = some ov →
        ou.np = ov.np → u = v) ∧
      (∀ l1 u l2, l = l1 ++ u :: l2 →
        ∃ o s1, s.mem u = some o ∧ o.type = .FILE_DATA ∧ s.fileinfo o.np = some u ∧
          pager_clear_user_data s u = some s1 ∧ registry s1 (l1 ++ l2) ∧
          s1.fileinfo = Function.update s.fileinfo o.np none ∧
          s1.light_refs = Function.update s.light_refs o.np (s.light_refs o.np - 1)) := by
  obtain ⟨l, hinv⟩ := reachable_inv s hs
  refine ⟨l, hinv.chain, hinv.nodup, ?_, ?_, ?_⟩
  · intro u
    constructor
    · intro hu
      obtain ⟨o, _, hf⟩ := hinv.list_live u hu
      exact ⟨o.np, hf⟩
    · rintro ⟨n, hf⟩
      exact (hinv.live_list n u hf).1
  · intro u hu v hv ou ov hou hov hnp
    obtain ⟨ou2, hou2, hfu⟩ := hinv.list_live u hu
    obtain ⟨ov2, hov2, hfv⟩ := hinv.list_live v hv
    rw [hou] at hou2
    rw [hov] at hov2
    cases hou2
    cases hov2
    rw [hnp, hfv] at hfu
    cases hfu
    rfl
  · intro l1 u l2 hl
    subst hl
    obtain ⟨o, s1, ho, hfu, hres, hinv1, hfi, hlr, _⟩ := clear_user_data_inv s l1 l2 u hinv
    obtain ⟨o2, ho2, hty⟩ := is_registry_mem s.mem _ _ _ hinv.chain u
      (List.mem_append_right _ (List.mem_cons_self _ _))
    rw [ho] at ho2
    cases ho2
    exact ⟨o, s1, ho, hty, hfu, hres, hinv1.chain, hfi, hlr⟩

/-- Witness of C9: the state with one file pager. -/
theorem registry_invariant_witness :
    ∃ l, registry one_pager_state l ∧ l.Nodup ∧
      (∀ u, u ∈ l ↔ ∃ n, one_pager_state.fileinfo n = some u) ∧
      (∀ u ∈ l, ∀ v ∈ l, ∀ ou ov, one_pager_state.mem u = some ou →
        one_pager_state.mem v = some ov → ou.np = ov.np → u = v) ∧
      (∀ l1 u l2, l = l1 ++ u :: l2 →
        ∃ o s1, one_pager_state.mem u = some o ∧ o.type = .FILE_DATA ∧
          one_pager_state.fileinfo o.np = some u ∧
          pager_clear_user_data one_pager_state u = some s1 ∧ registry s1 (l1 ++ l2) ∧
          s1.fileinfo = Function.update one_pager_state.fileinfo o.np none ∧
          s1.light_refs = Function.update one_pager_state.light_refs o.np
            (one_pager_state.light_refs o.np - 1)) :=
  registry_invariant one_pager_state one_pager_reachable

/-! ## Proofs for `pager_traverse` -/

theorem bump_refs_apply (d : Int) (hs : List Nat) :
    ∀ (refs : Nat → Int) (x : Nat), bump_refs d hs refs x = refs x + d * (hs.count x) := by
  induction hs with
  | nil => intro refs x; simp [bump_refs]
  | cons hd hs ih =>
    intro refs x
    have hstep : bump_refs d (hd :: hs) refs
        = bump_refs d hs (Function.update refs hd (refs hd + d)) := rfl
    rw [hstep, ih]
    by_cases hx : x = hd
    · subst hx
      simp only [Function.update_same, List.count_cons_self]
      push_cast
      ring
    · have hx2 : (hd == x) = false := by simpa using fun e => hx (Eq.symm e)
      simp only [Function.update_noteq hx, List.count_cons, hx2]
      simp

theorem traverse_snapshot_eq {σ : Type} (mem : Nat → Option user_pager_info) (l : List Nat) :
    ∀ (c : ptr_cell) (p : Option Nat) (list : List Nat) (w : traverse_world σ) (fuel : Nat),
      is_registry mem c p l → l.length < fuel →
      traverse_snapshot mem fuel p list w
        = some (l.reverse ++ list,
            { w with
              pager_refs := bump_refs 1 (l.map (handle_of mem)) w.pager_refs
              events := w.events ++ l.map (fun u => traverse_event.reference (handle_of mem u)) })
    := by
  induction l with
  | nil =>
    intro c p list w fuel h hfuel
    have hp : p = none := h
    subst hp
    cases fuel with
    | zero => simp at hfuel
    | succ fuel => simp [traverse_snapshot, bump_refs]
  | cons u l ih =>
    intro c p list w fuel h hfuel
    obtain ⟨hp, o, ho, _, _, hrest⟩ := h
    subst hp
    cases fuel with
    | zero => simp at hfuel
    | succ fuel =>
      have hfuel2 : l.length < fuel := by
        simp only [List.length_cons] at hfuel
        omega
      have hh : handle_of mem u = o.p := by simp [handle_of, ho]
      simp only [traverse_snapshot, ho]
      rw [ih _ _ _ _ _ hrest hfuel2]
      simp [bump_refs, hh, List.foldl_cons, pager_reference]

theorem traverse_invoke_eq {σ : Type} (mem : Nat → Option user_pager_info)
    (func : Nat → σ → σ) (list : List Nat) :
    ∀ (w : traverse_world σ), (∀ u ∈ list, ∃ o, mem u = some o) →
      traverse_invoke mem func list w
        = some
            { pager_refs := bump_refs (-1) (list.map (handle_of mem)) w.pager_refs
              events := w.events ++ list.flatMap (fun u =>
                [traverse_event.func u, traverse_event.unreference (handle_of mem u)])
              user := list.foldl (fun st u => func u st) w.user } := by
  induction list with
  | nil => intro w _; simp [traverse_invoke, bump_refs]
  | cons u list ih =>
    intro w hall
    obtain ⟨o, ho⟩ := hall u (List.mem_cons_self _ _)
    have hh : handle_of mem u = o.p := by simp [handle_of, ho]
    simp only [traverse_invoke, ho]
    rw [ih _ (fun x hx => hall x (List.mem_cons_of_mem _ hx))]
    simp [bump_refs, hh, List.foldl_cons, sub_eq_add_neg, pager_unreference]

theorem invoked_append (a b : List traverse_event) : invoked (a ++ b) = invoked a ++ invoked b := by
  induction a with
  | nil => rfl
  | cons e a ih =>
    cases e <;> simp [invoked, ih]

theorem invoked_references (mem : Nat → Option user_pager_info) (l : List Nat) :
    invoked (l.map (fun u => traverse_event.reference (handle_of mem u))) = [] := by
  induction l with
  | nil => rfl
  | cons u l ih => simpa [invoked] using ih

theorem invoked_pairs (mem : Nat → Option user_pager_info) (l : List Nat) :
    invoked (l.flatMap (fun u =>
      [traverse_event.func u, traverse_event.unreference (handle_of mem u)])) = l := by
  induction l with
  | nil => rfl
  | cons u l ih =>
    rw [List.flatMap_cons]
    change invoked (traverse_event.func u :: traverse_event.unreference (handle_of mem u)
      :: l.flatMap (fun u =>
        [traverse_event.func u, traverse_event.unreference (handle_of mem u)])) = u :: l
    simp only [invoked]
    rw [ih]

theorem invoked_traverse_calls (mem : Nat → Option user_pager_info) (l : List Nat)
    (diskpager : Nat) : invoked (traverse_calls mem l diskpager) = l.reverse ++ [diskpager] := by
  simp [traverse_calls, invoked_append, invoked_references, invoked_pairs, invoked]

/-- C10: traversal order and coverage.  For a state whose Registry list is `l`
and whose device pager is not a file pager, for every function `func` and enough
fuel, `pager_traverse` returns; the calls it makes are a reference on the handle
of each file pager, then for each file pager `func` followed by the release of
that reference, then `func` on the device pager.  So `func` is invoked on the
pagers `l.reverse ++ [diskpager]`, a list without repetition that has every file
pager of the Registry and ends with the device pager; the state of `func` is the
result of these invocations in that order; and every reference count is as on
entry. -/
theorem pager_traverse_order {σ : Type} (s : fs_state) (l : List Nat) (diskpager : Nat)
    (func : Nat → σ → σ) (fuel : Nat) (w : traverse_world σ)
    (hreg : registry s l) (hfuel : l.length < fuel)
    (hdisk : ∃ d, s.mem diskpager = some d ∧ d.type = .DISK) :
    ∃ w2, pager_traverse s diskpager func fuel w = some w2 ∧
      w2.events = w.events ++ traverse_calls s.mem l diskpager ∧
      invoked (traverse_calls s.mem l diskpager) = l.reverse ++ [diskpager] ∧
      (l.reverse ++ [diskpager]).Nodup ∧
      (∀ u, u ∈ l → u ∈ l.reverse ++ [diskpager]) ∧
      (traverse_calls s.mem l diskpager).getLast? = some (.func diskpager) ∧
      w2.user = (l.reverse ++ [diskpager]).foldl (fun st u => func u st) w.user ∧
      w2.pager_refs = w.pager_refs := by
  have hall := is_registry_mem s.mem _ _ _ hreg
  have hsnap := @traverse_snapshot_eq σ s.mem l _ _ [] w fuel hreg hfuel
  have hinvk := traverse_invoke_eq s.mem func l.reverse
    { w with
      pager_refs := bump_refs 1 (l.map (handle_of s.mem)) w.pager_refs
      events := w.events ++ l.map (fun u => traverse_event.reference (handle_of s.mem u)) }
    (by
      intro u hu
      obtain ⟨o, ho, _⟩ := hall u (List.mem_reverse.1 hu)
      exact ⟨o, ho⟩)
  have hdl : diskpager ∉ l := by
    intro hmem
    obtain ⟨o, ho, hty⟩ := hall diskpager hmem
    obtain ⟨d, hd, hdty⟩ := hdisk
    rw [ho] at hd
    cases hd
    rw [hty] at hdty
    cases hdty
  refine ⟨{ pager_refs := bump_refs (-1) (l.reverse.map (handle_of s.mem))
                (bump_refs 1 (l.map (handle_of s.mem)) w.pager_refs),
             events := (w.events
                ++ l.map (fun u => traverse_event.reference (handle_of s.mem u))
                ++ l.reverse.flatMap (fun u =>
                  [traverse_event.func u, traverse_event.unreference (handle_of s.mem u)]))
                ++ [traverse_event.func diskpager],
             user := func diskpager (l.reverse.foldl (fun st u => func u st) w.user) },
    ?_, ?_, invoked_traverse_calls s.mem l diskpager, ?_, ?_, ?_, ?_, ?_⟩
  · simp only [pager_traverse, hsnap, List.append_nil, hinvk]
  · simp [traverse_calls, List.append_assoc]
  · rw [List.nodup_append]
    refine ⟨List.nodup_reverse.2 (registry_nodup s l hreg), List.nodup_singleton _, ?_⟩
    intro x h1 h2
    simp only [List.mem_singleton] at h2
    subst h2
    exact hdl (List.mem_reverse.1 h1)
  · intro u hu
    exact List.mem_append_left _ (List.mem_reverse.2 hu)
  · simp [traverse_calls]
  · simp [List.foldl_append]
  · funext x
    simp only [bump_refs_apply, List.map_reverse, List.count_reverse]
    ring

/-- Witness of C10: the traversal of `traverse_state`, with a `func` that logs
the pagers it is called on. -/
theorem pager_traverse_order_witness :
    ∃ w2, pager_traverse traverse_state 1 (fun u (st : List Nat) => st ++ [u]) 2
        { pager_refs := fun _ => 1, events := [], user := [] } = some w2 ∧
      w2.events = [] ++ traverse_calls traverse_state.mem [100] 1 ∧
      invoked (traverse_calls traverse_state.mem [100] 1) = [100].reverse ++ [1] ∧
      ([100].reverse ++ [1]).Nodup ∧
      (∀ u, u ∈ [100] → u ∈ [100].reverse ++ [1]) ∧
      (traverse_calls traverse_state.mem [100] 1).getLast? = some (.func 1) ∧
      w2.user = ([100].reverse ++ [1]).foldl (fun st u => st ++ [u]) [] ∧
      w2.pager_refs = fun _ => 1 :=
  pager_traverse_order traverse_state [100] 1 (fun u (st : List Nat) => st ++ [u]) 2
    { pager_refs := fun _ => 1, events := [], user := [] }
    ⟨rfl, _, rfl, rfl, rfl, rfl⟩ (by decide) ⟨_, rfl, rfl⟩

end Ext2fs
